import Mathlib

/-!
Shallow embedding of the `dicey` dice-notation library (parser / roll
pipeline / formatter) and proofs about it.

Modelling conventions:
* Rust `Result<T>` becomes `Except RollError T`.
* The `DiceRollSource` trait (`roll_single_die : u64 → u64`) is modelled as an
  infinite stream `src : Nat → Nat` of draw values together with a cursor
  `idx : Nat`; drawing one die reads `src idx` and advances the cursor.
  Stateful functions return their result together with the final cursor, so
  the number of draws a call performs is observable even on the error path.
* The generic roll type (`trait Roll : Ord + Into<i64> + Copy + Display`) is a
  type `R` with a `LinearOrder` instance plus a `RollRepr` instance providing
  the integer coercion and a display function.  `BasicDice` (`NonZeroU32`)
  rolls are `Nat`, `Fudge` rolls are `Int` (the Rust `i8` restricted to
  `{-1, 0, 1}`).
* Machine integers are `Nat`/`Int` with explicit bounds checks where the Rust
  code can overflow (numeric parsing).
-/

/-- Model of `RollError` (src/dicey/src/error.rs): the two error kinds.  A
`ParseError` boxes its cause; here we keep only the cause's display string
(the pointer-equality refinement of `PartialEq` is not modelled). -/
inductive RollError : Type where
  | ParseError (msg : String)
  | ParamError (msg : String)
deriving DecidableEq, Repr

/-- Model of `MAX_NUMBER_OF_DICE` (src/dicey/src/dice_expression.rs line 376). -/
def MAX_NUMBER_OF_DICE : Nat := 5000

/-- Model of `limit_dice` (src/dicey/src/dice_expression.rs lines 378-387). -/
def limit_dice (number_of_dice : Nat) (during : String) : Except RollError Unit :=
  if number_of_dice > MAX_NUMBER_OF_DICE then
    .error (.ParamError ("Exceed maximum allowed number of dice (" ++
      toString MAX_NUMBER_OF_DICE ++ ") during " ++ during ++ "."))
  else
    .ok ()

/-- Model of the `Roll` trait's `Into<i64>` and `Display` requirements
(src/dicey/src/dice_kind/mod.rs lines 25-28). -/
class RollRepr (R : Type) where
  toInt : R → ℤ
  str : R → String

instance : RollRepr Nat where
  toInt n := (n : ℤ)
  str n := toString n

/-- Fudge rolls are `i8` values in `{-1, 0, 1}` and display as `(+)`, `( )`,
`(-)` (src/dicey/src/dice_kind/fudge.rs lines 23-32). -/
def fudgeStr (v : ℤ) : String :=
  if v = 1 then "(+)" else if v = 0 then "( )" else "(-)"

instance : RollRepr Int where
  toInt v := v
  str v := fudgeStr v

/-! ## Keep / drop (src/dicey/src/keep_or_drop.rs) -/

/-- Model of Rust's stable `sort_by_key`: Mathlib's insertion sort with the
comparison `key a ≤ key b` is a stable sort by the key, which is the behaviour
`slice::sort_by_key` guarantees. -/
def sortByKey {T K : Type} [LinearOrder K] (key : T → K) (l : List T) : List T :=
  List.insertionSort (fun a b => key a ≤ key b) l

/-- Model of `keep_low` (src/dicey/src/keep_or_drop.rs lines 4-27).  Copies
`v` flagging the `to_keep` smallest entries (as ordered by `f`) with `true`
and the rest with `false`, preserving the original order.  Rust's
`v[*index]` indexing is modelled with `getD` (the index is always in
bounds). -/
def keep_low {T K : Type} [Inhabited T] [LinearOrder K] (v : List T) (to_keep : Nat)
    (f : T → K) : Except RollError (List (Bool × T)) :=
  if to_keep > v.length then
    .error (.ParamError "Not enough dice to keep or drop")
  else
    let keys : List (K × Nat) := v.enum.map (fun it => (f it.2, it.1))
    let sortedKeys := sortByKey (fun p => p.1) keys
    let flagged_indexes : List (Bool × Nat) :=
      sortedKeys.enum.map (fun ip => (ip.1 < to_keep, ip.2.2))
    let restored := sortByKey (fun p => p.2) flagged_indexes
    .ok (restored.map (fun fi => (fi.1, v.getD fi.2 default)))

/-- Model of `KeepOrDrop` (src/dicey/src/keep_or_drop.rs lines 29-36). -/
inductive KeepOrDrop : Type where
  | KeepHi (n : Nat)
  | KeepLo (n : Nat)
  | DropHi (n : Nat)
  | DropLo (n : Nat)
deriving DecidableEq, Repr

/-- Model of `KeepOrDrop::apply` (src/dicey/src/keep_or_drop.rs lines 38-66).
`std::cmp::Reverse` on the key is modelled by `OrderDual`; the
`checked_sub` guard becomes an explicit `≤` test. -/
def KeepOrDrop.apply {T K : Type} [Inhabited T] [LinearOrder K] (op : KeepOrDrop)
    (v : List T) (get_number : T → K) : Except RollError (List (Bool × T)) :=
  match op with
  | .KeepHi n => keep_low v n (fun result => OrderDual.toDual (get_number result))
  | .KeepLo n => keep_low v n (fun result => get_number result)
  | .DropHi n =>
    if n ≤ v.length then
      keep_low v (v.length - n) (fun result => get_number result)
    else
      .error (.ParamError ("Cannot drop " ++ toString n ++ " dice when there are only " ++
        toString v.length))
  | .DropLo n =>
    if n ≤ v.length then
      keep_low v (v.length - n) (fun result => OrderDual.toDual (get_number result))
    else
      .error (.ParamError ("Cannot drop " ++ toString n ++ " dice when there are only " ++
        toString v.length))

/-! ## Dice kinds (src/dicey/src/dice_kind/) -/

/-- Model of the `DiceKind` trait (src/dicey/src/dice_kind/mod.rs lines 16-23):
`max`, `min`, and how one draw from the randomness source becomes a roll
value.  Both implementations consume exactly one draw per roll. -/
structure DiceKindG (R : Type) where
  max : R
  min : R
  fromDraw : Nat → R

/-- Model of `DiceKind::roll`: read one value from the stream and advance the
cursor. -/
def DiceKindG.roll {R : Type} (dice : DiceKindG R) (src : Nat → Nat) (idx : Nat) : R × Nat :=
  (dice.fromDraw (src idx), idx + 1)

/-- Model of `BasicDice = NonZeroU32` as a fair die from 1 to `sides`
(src/dicey/src/dice_kind/basic.rs). -/
def basicKind (sides : Nat) : DiceKindG Nat :=
  { max := sides, min := 1, fromDraw := fun v => v }

/-- Model of `Fudge` (src/dicey/src/dice_kind/fudge.rs): a draw from
`roll_single_die(3)` shifted down by 2, giving `{-1, 0, 1}`. -/
def fudgeKind : DiceKindG Int :=
  { max := 1, min := -1, fromDraw := fun v => (v : ℤ) - 2 }

/-! ## Per-roll modifiers and the roll pipeline (src/dicey/src/dice_expression.rs) -/

/-- Model of `RollModifier` (src/dicey/src/dice_expression.rs lines 146-157). -/
inductive RollModifier (R : Type) : Type where
  | none
  | drop
  | reroll (items : List R)
  | explode (items : List R)
deriving DecidableEq, Repr

/-- Model of `ModifiedRoll` (src/dicey/src/dice_expression.rs lines 34-38). -/
structure ModifiedRoll (R : Type) where
  before : R
  modifier : RollModifier R
deriving DecidableEq, Repr

/-- Model of `ModifiedRoll::after` (src/dicey/src/dice_expression.rs lines
107-120).  `r.last().unwrap_or(&self.before)` is `getLast?.getD before`. -/
def ModifiedRoll.after {R : Type} (m : ModifiedRoll R) : List R :=
  match m.modifier with
  | .none => [m.before]
  | .drop => []
  | .reroll r => [r.getLast?.getD m.before]
  | .explode r => m.before :: r

/-- Model of `ModifiedRollBatch` (src/dicey/src/dice_expression.rs lines 29-32). -/
structure ModifiedRollBatch (R : Type) where
  rolls : List (ModifiedRoll R)
deriving DecidableEq, Repr

/-- Model of `ModifiedRollBatch::after` (src/dicey/src/dice_expression.rs
lines 141-143): concatenation of `after()` over the entries. -/
def ModifiedRollBatch.after {R : Type} (b : ModifiedRollBatch R) : List R :=
  b.rolls.flatMap ModifiedRoll.after

/-- Model of `PerRollModifier` (src/dicey/src/dice_expression.rs lines 199-210). -/
inductive PerRollModifier (R : Type) : Type where
  | RerollOnce (n : R)
  | RerollUnlimited (n : R)
  | ExplodeOnce (n : R)
  | ExplodeUnlimited (n : R)
deriving DecidableEq, Repr

/-- Model of `RollBatchModifier` (src/dicey/src/dice_expression.rs lines 159-164). -/
inductive RollBatchModifier (R : Type) : Type where
  | KeepOrDrop (op : KeepOrDrop)
  | PerRollModifier (op : PerRollModifier R)
deriving DecidableEq, Repr

/-- Model of `roll_until` (src/dicey/src/dice_expression.rs lines 276-291):
rolls until `end_condition` holds, checking `limit_dice` before every draw.
The accumulator bound makes the recursion well-founded, matching the
bounded-work argument of the Rust loop. -/
def roll_until {R : Type} (dice : DiceKindG R) (end_condition : R → Bool)
    (src : Nat → Nat) (roll : R) (idx : Nat) (new_rolls : List R) :
    Except RollError (List R) × Nat :=
  if end_condition roll then
    (.ok new_rolls, idx)
  else
    match h : limit_dice new_rolls.length "rerolls" with
    | .error e => (.error e, idx)
    | .ok _ =>
      let next := dice.fromDraw (src idx)
      roll_until dice end_condition src next (idx + 1) (new_rolls ++ [next])
termination_by MAX_NUMBER_OF_DICE + 1 - new_rolls.length
decreasing_by
  unfold limit_dice at h
  split at h
  · exact absurd h (by simp)
  · simp only [List.length_append, List.length_singleton]
    omega

/-- Model of `PerRollModifier::apply` (src/dicey/src/dice_expression.rs lines
212-271).  Returns the outcome together with the randomness cursor, so "no
die is drawn" on the guard path is visible as an unchanged cursor. -/
def PerRollModifier.apply {R : Type} [LinearOrder R] [RollRepr R]
    (m : PerRollModifier R) (dice : DiceKindG R) (roll : R) (src : Nat → Nat)
    (idx : Nat) : Except RollError (ModifiedRoll R) × Nat :=
  match m with
  | .RerollOnce n =>
    if roll ≤ n then
      let rolled := dice.roll src idx
      (.ok { before := roll, modifier := .reroll [rolled.1] }, rolled.2)
    else
      (.ok { before := roll, modifier := .none }, idx)
  | .RerollUnlimited n =>
    if n ≥ dice.max then
      (.error (.ParamError ("Cannot infinitely reroll dice of " ++ RollRepr.str n ++
        " or lower since the maximum roll is " ++ RollRepr.str dice.max ++
        ": this would go on forever")), idx)
    else
      match roll_until dice (fun next => n < next) src roll idx [] with
      | (.error e, idx') => (.error e, idx')
      | (.ok new_rolls, idx') =>
        if new_rolls ≠ [] then
          (.ok { before := roll, modifier := .reroll new_rolls }, idx')
        else
          (.ok { before := roll, modifier := .none }, idx')
  | .ExplodeOnce n =>
    if roll ≥ n then
      let rolled := dice.roll src idx
      (.ok { before := roll, modifier := .explode [rolled.1] }, rolled.2)
    else
      (.ok { before := roll, modifier := .none }, idx)
  | .ExplodeUnlimited n =>
    if n ≤ dice.min then
      (.error (.ParamError ("Cannot infinitely explode dice of " ++ RollRepr.str n ++
        " or higher since the minimum roll is " ++ RollRepr.str dice.min ++
        ": this would go on forever")), idx)
    else
      match roll_until dice (fun next => next < n) src roll idx [] with
      | (.error e, idx') => (.error e, idx')
      | (.ok new_rolls, idx') =>
        if new_rolls ≠ [] then
          (.ok { before := roll, modifier := .explode new_rolls }, idx')
        else
          (.ok { before := roll, modifier := .none }, idx')

/-- Model of the `for before in &batch.rolls` loop inside
`ModifiedRollBatch::new` (src/dicey/src/dice_expression.rs lines 130-136):
apply the per-roll modifier to each roll in order, threading the randomness
cursor and stopping at the first error. -/
def applyPerRoll {R : Type} [LinearOrder R] [RollRepr R] (op : PerRollModifier R)
    (dice : DiceKindG R) (rolls : List R) (src : Nat → Nat) (idx : Nat) :
    Except RollError (List (ModifiedRoll R)) × Nat :=
  match rolls with
  | [] => (.ok [], idx)
  | before :: rest =>
    match op.apply dice before src idx with
    | (.error e, idx') => (.error e, idx')
    | (.ok m, idx') =>
      match applyPerRoll op dice rest src idx' with
      | (.error e, idx'') => (.error e, idx'')
      | (.ok ms, idx'') => (.ok (m :: ms), idx'')

/-- Model of `RollBatch::keep_or_drop` (src/dicey/src/dice_expression.rs lines
293-310): kept rolls become `RollModifier::None`, dropped rolls become
`RollModifier::Drop`. -/
def keepOrDropBatch {R : Type} [Inhabited R] [LinearOrder R] (op : KeepOrDrop)
    (rolls : List R) : Except RollError (ModifiedRollBatch R) :=
  match op.apply rolls (fun d => d) with
  | .error e => .error e
  | .ok flagged =>
    .ok { rolls := flagged.map (fun kv =>
      { before := kv.2, modifier := if kv.1 then .none else .drop }) }

/-- Model of `ModifiedRollBatch::new` (src/dicey/src/dice_expression.rs lines
122-140). -/
def ModifiedRollBatch.new {R : Type} [Inhabited R] [LinearOrder R] [RollRepr R]
    (dice : DiceKindG R) (rolls : List R) (modifier : RollBatchModifier R)
    (src : Nat → Nat) (idx : Nat) : Except RollError (ModifiedRollBatch R) × Nat :=
  match modifier with
  | .KeepOrDrop op => (keepOrDropBatch op rolls, idx)
  | .PerRollModifier op =>
    match applyPerRoll op dice rolls src idx with
    | (.error e, idx') => (.error e, idx')
    | (.ok modified, idx') => (.ok { rolls := modified }, idx')

/-! ## Aggregators (src/dicey/src/dice_expression.rs lines 492-540) -/

/-- Model of `Aggregator` (src/dicey/src/dice_expression.rs lines 493-503).
The `HashSet` of `TargetEnum` is modelled as the list of its elements; it is
built by `mkTargetSet` below, which normalises to a sorted duplicate-free
list exactly as the set abstraction (and its sorted display) demands. -/
inductive Aggregator (R : Type) : Type where
  | TargetFailureDouble (t f d : Option R)
  | TargetEnum (items : List R)
  | Sum
deriving DecidableEq, Repr

/-- Builds the model of `HashSet::from_iter` for `TargetEnum`: a sorted list
without duplicates representing the finite set of target values. -/
def mkTargetSet {R : Type} [LinearOrder R] (items : List R) : List R :=
  sortByKey (fun x => x) items.dedup

/-- True when the option holds a threshold the roll meets from above
(`roll >= v` in the Rust `if let Some(v) = *o && roll >= v` chains). -/
def optGe {R : Type} [LinearOrder R] (o : Option R) (roll : R) : Bool :=
  match o with
  | some v => v ≤ roll
  | none => false

/-- True when the option holds a threshold the roll meets from below
(`roll <= v`). -/
def optLe {R : Type} [LinearOrder R] (o : Option R) (roll : R) : Bool :=
  match o with
  | some v => roll ≤ v
  | none => false

/-- Model of `Aggregator::apply_single` (src/dicey/src/dice_expression.rs
lines 510-539): the early-return chain gives `tt` priority over `t` over `f`. -/
def Aggregator.apply_single {R : Type} [LinearOrder R] [RollRepr R]
    (agg : Aggregator R) (roll : R) : ℤ :=
  match agg with
  | .TargetFailureDouble t f d =>
    if optGe d roll then 2
    else if optGe t roll then 1
    else if optLe f roll then -1
    else 0
  | .TargetEnum items => if roll ∈ items then 1 else 0
  | .Sum => RollRepr.toInt roll

/-- Model of `Aggregator::total` (src/dicey/src/dice_expression.rs lines
506-508): a left fold of `apply_single` starting from 0. -/
def Aggregator.total {R : Type} [LinearOrder R] [RollRepr R]
    (agg : Aggregator R) (rolls : List R) : ℤ :=
  rolls.foldl (fun sum r => sum + agg.apply_single r) 0

/-! ## RollSpec evaluation (src/dicey/src/dice_expression.rs lines 312-434) -/

/-- Model of `RollSpec` (src/dicey/src/dice_expression.rs lines 313-319). -/
structure RollSpecG (R : Type) where
  dice : DiceKindG R
  number_of_dice : Nat
  modifiers : List (RollBatchModifier R)
  aggregator : Aggregator R

/-- Model of `EvaluatedRollSpec` (src/dicey/src/dice_expression.rs lines
425-434).  The Rust struct stores `final_rolls` as a `RollBatch` which also
carries the dice kind; only the roll list is kept here. -/
structure EvaluatedRollSpecG (R : Type) where
  total : ℤ
  history : List (RollBatchModifier R × ModifiedRollBatch R)
  final_rolls : List R
deriving DecidableEq, Repr

/-- Model of the initial batch creation `(0..self.number_of_dice).map(|_|
self.dice.roll(rng))` (src/dicey/src/dice_expression.rs lines 391-396). -/
def rollN {R : Type} (dice : DiceKindG R) (n : Nat) (src : Nat → Nat) (idx : Nat) :
    List R × Nat :=
  match n with
  | 0 => ([], idx)
  | m + 1 =>
    let first := dice.roll src idx
    let rest := rollN dice m src first.2
    (first.1 :: rest.1, rest.2)

/-- Model of the `for modifier in &self.modifiers` loop of `RollSpec::dyn_roll`
(src/dicey/src/dice_expression.rs lines 400-405) together with the final
`EvaluatedRollSpec` construction. -/
def dynRollLoop {R : Type} [Inhabited R] [LinearOrder R] [RollRepr R]
    (agg : Aggregator R) (dice : DiceKindG R) (mods : List (RollBatchModifier R))
    (rolls : List R) (history : List (RollBatchModifier R × ModifiedRollBatch R))
    (src : Nat → Nat) (idx : Nat) : Except RollError (EvaluatedRollSpecG R) × Nat :=
  match mods with
  | [] => (.ok { total := agg.total rolls, history := history, final_rolls := rolls }, idx)
  | m :: rest =>
    match ModifiedRollBatch.new dice rolls m src idx with
    | (.error e, idx') => (.error e, idx')
    | (.ok next, idx') =>
      let rolls' := next.after
      match limit_dice rolls'.length "batch aggregation" with
      | .error e => (.error e, idx')
      | .ok _ => dynRollLoop agg dice rest rolls' (history ++ [(m, next)]) src idx'

/-- Model of `RollSpec::dyn_roll` (src/dicey/src/dice_expression.rs lines
389-413). -/
def RollSpecG.dyn_roll {R : Type} [Inhabited R] [LinearOrder R] [RollRepr R]
    (spec : RollSpecG R) (src : Nat → Nat) (idx : Nat) :
    Except RollError (EvaluatedRollSpecG R) × Nat :=
  let init := rollN spec.dice spec.number_of_dice src idx
  dynRollLoop spec.aggregator spec.dice spec.modifiers init.1 [] src init.2

/-! ## Floats (`f64` totals and `RollableFloat` literals)

`f64` is modelled by `F`: exact rationals plus the three special values
`inf`, `-inf`, `NaN`.  Finite arithmetic is exact (rounding is not
modelled); special values follow the IEEE-754 rules.  Signed zero and the
sign of NaN are not modelled, so `f64::total_cmp` becomes the total order
`F.fle` with the single NaN placed greatest. -/
inductive F : Type where
  | finite (q : ℚ)
  | inf
  | negInf
  | nan
deriving DecidableEq, Repr

/-- IEEE-style negation on the float model. -/
def F.neg : F → F
  | .finite q => .finite (-q)
  | .inf => .negInf
  | .negInf => .inf
  | .nan => .nan

/-- IEEE-style addition on the float model (exact on finite values). -/
def F.add : F → F → F
  | .nan, _ | _, .nan => .nan
  | .inf, .negInf | .negInf, .inf => .nan
  | .inf, _ | _, .inf => .inf
  | .negInf, _ | _, .negInf => .negInf
  | .finite a, .finite b => .finite (a + b)

/-- IEEE-style subtraction on the float model. -/
def F.sub (a b : F) : F := F.add a b.neg

/-- IEEE-style multiplication on the float model (exact on finite values). -/
def F.mul : F → F → F
  | .nan, _ | _, .nan => .nan
  | .inf, .inf | .negInf, .negInf => .inf
  | .inf, .negInf | .negInf, .inf => .negInf
  | .inf, .finite b | .finite b, .inf =>
    if b = 0 then .nan else if 0 < b then .inf else .negInf
  | .negInf, .finite b | .finite b, .negInf =>
    if b = 0 then .nan else if 0 < b then .negInf else .inf
  | .finite a, .finite b => .finite (a * b)

/-- IEEE-style division on the float model; division by zero yields
`inf`/`-inf`/`NaN` as the spec requires (signed zero collapsed to `+0`). -/
def F.div : F → F → F
  | .nan, _ | _, .nan => .nan
  | .inf, .inf | .inf, .negInf | .negInf, .inf | .negInf, .negInf => .nan
  | .inf, .finite b => if 0 ≤ b then .inf else .negInf
  | .negInf, .finite b => if 0 ≤ b then .negInf else .inf
  | .finite _, .inf | .finite _, .negInf => .finite 0
  | .finite a, .finite b =>
    if b = 0 then (if a = 0 then .nan else if 0 < a then .inf else .negInf)
    else .finite (a / b)

/-- Model of `f64::total_cmp` as a `≤` test: a total order on the float model
with `-inf` least and `NaN` greatest (NaN's sign bit is not modelled). -/
def F.fle : F → F → Bool
  | .nan, .nan => true
  | _, .nan => true
  | .nan, _ => false
  | .inf, .inf => true
  | .inf, _ => false
  | _, .inf => true
  | .negInf, _ => true
  | _, .negInf => false
  | .finite a, .finite b => a ≤ b

theorem F.fle_total (a b : F) : F.fle a b = true ∨ F.fle b a = true := by
  cases a <;> cases b <;> simp [F.fle] <;> exact le_total _ _

theorem F.fle_trans {a b c : F} (h1 : F.fle a b = true) (h2 : F.fle b c = true) :
    F.fle a c = true := by
  cases a <;> cases b <;> cases c <;> simp_all [F.fle]
  exact le_trans h1 h2

/-- Decimal digits of `num / den` after the point, by long division
(`fuel` bounds the number of digits; display only, not used in proofs). -/
def fracDigitsAux : Nat → Nat → Nat → String
  | 0, _, _ => ""
  | _ + 1, 0, _ => ""
  | fuel + 1, rem, den =>
    toString (rem * 10 / den) ++ fracDigitsAux fuel (rem * 10 % den) den

/-- Decimal rendering of a non-integral rational (display only). -/
def ratDecimalStr (q : ℚ) : String :=
  let sign := if q < 0 then "-" else ""
  let n := q.num.natAbs
  let d := q.den
  sign ++ toString (n / d) ++ "." ++ fracDigitsAux 1200 (n % d) d

/-- Model of `Display for RollableFloat` (src/dicey/src/expression.rs lines
133-142): integral values print with a trailing `.0`; the special values
print as Rust's `f64` `Display` does (`inf.fract()` is NaN, never zero, so
`inf`, `-inf` and `NaN` take the plain branch). -/
def F.display : F → String
  | .nan => "NaN"
  | .inf => "inf"
  | .negInf => "-inf"
  | .finite q => if q.den = 1 then toString q.num ++ ".0" else ratDecimalStr q

/-! ## Expression tree (src/dicey/src/expression.rs) -/

/-- Model of `BinaryOp` (src/dicey/src/expression.rs lines 48-54). -/
inductive BinaryOp : Type where
  | add
  | sub
  | mul
  | div
deriving DecidableEq, Repr

/-- Model of `BinaryOp::apply` (src/dicey/src/expression.rs lines 56-64) on
the float model. -/
def BinaryOp.applyF : BinaryOp → F → F → F
  | .add, a, b => F.add a b
  | .sub, a, b => F.sub a b
  | .mul, a, b => F.mul a b
  | .div, a, b => F.div a b

/-- Operator text used by `BinaryOp::format` (plain, no markdown)
(src/dicey/src/expression.rs lines 66-81). -/
def BinaryOp.str : BinaryOp → String
  | .add => " + "
  | .sub => " - "
  | .mul => "*"
  | .div => "/"

/-- Model of the parsed `Expression` tree (src/dicey/src/expression.rs):
integer and float literals, binary operations, blocks, variable references,
and dice roll specs.  `RollSpec<BasicDice>` and `RollSpec<Fudge>` are the
two monomorphised dice cases; they carry the parsed fields of `RollSpec`. -/
inductive Expr : Type where
  | int (i : ℤ)
  | float (x : F)
  | binary (op : BinaryOp) (left right : Expr)
  | block (inner : Expr)
  | var (name : String) (inner : Expr)
  | diceBasic (sides : Nat) (count : Nat)
      (modifiers : List (RollBatchModifier Nat)) (aggregator : Aggregator Nat)
  | diceFudge (count : Nat)
      (modifiers : List (RollBatchModifier Int)) (aggregator : Aggregator Int)
deriving DecidableEq, Repr

/-- The `RollSpec<BasicDice>` value held by a `diceBasic` node. -/
def basicSpec (sides count : Nat) (mods : List (RollBatchModifier Nat))
    (agg : Aggregator Nat) : RollSpecG Nat :=
  { dice := basicKind sides, number_of_dice := count, modifiers := mods, aggregator := agg }

/-- The `RollSpec<Fudge>` value held by a `diceFudge` node. -/
def fudgeSpec (count : Nat) (mods : List (RollBatchModifier Int))
    (agg : Aggregator Int) : RollSpecG Int :=
  { dice := fudgeKind, number_of_dice := count, modifiers := mods, aggregator := agg }

/-- Model of the evaluated expression tree (`EvaluatedExpression` impls in
src/dicey/src/expression.rs and `EvaluatedRollSpec`). -/
inductive EvalExpr : Type where
  | int (i : ℤ)
  | float (x : F)
  | binary (op : BinaryOp) (left right : EvalExpr)
  | block (inner : EvalExpr)
  | var (name : String) (inner : EvalExpr)
  | diceBasic (ev : EvaluatedRollSpecG Nat)
  | diceFudge (ev : EvaluatedRollSpecG Int)
deriving DecidableEq, Repr

/-- Model of `EvaluatedExpression::total` over the evaluated tree: dice totals
are `i64` widened to `f64` (src/dicey/src/dice_expression.rs lines 437-439),
binary nodes apply their operator on `f64`. -/
def EvalExpr.total : EvalExpr → F
  | .int i => .finite (i : ℚ)
  | .float x => x
  | .binary op l r => op.applyF l.total r.total
  | .block e => e.total
  | .var _ e => e.total
  | .diceBasic ev => .finite (ev.total : ℚ)
  | .diceFudge ev => .finite (ev.total : ℚ)

/-- Model of `Expression::roll_with_source`: evaluate the tree left-to-right,
threading the randomness cursor (binary nodes roll the left operand first,
src/dicey/src/expression.rs lines 97-107). -/
def Expr.eval : Expr → (Nat → Nat) → Nat → Except RollError EvalExpr × Nat
  | .int i, _, idx => (.ok (.int i), idx)
  | .float x, _, idx => (.ok (.float x), idx)
  | .binary op l r, src, idx =>
    match l.eval src idx with
    | (.error e, idx') => (.error e, idx')
    | (.ok le, idx') =>
      match r.eval src idx' with
      | (.error e, idx'') => (.error e, idx'')
      | (.ok re, idx'') => (.ok (.binary op le re), idx'')
  | .block e, src, idx =>
    match e.eval src idx with
    | (.error err, idx') => (.error err, idx')
    | (.ok ev, idx') => (.ok (.block ev), idx')
  | .var nm e, src, idx =>
    match e.eval src idx with
    | (.error err, idx') => (.error err, idx')
    | (.ok ev, idx') => (.ok (.var nm ev), idx')
  | .diceBasic sides count mods agg, src, idx =>
    match (basicSpec sides count mods agg).dyn_roll src idx with
    | (.error e, idx') => (.error e, idx')
    | (.ok ev, idx') => (.ok (.diceBasic ev), idx')
  | .diceFudge count mods agg, src, idx =>
    match (fudgeSpec count mods agg).dyn_roll src idx with
    | (.error e, idx') => (.error e, idx')
    | (.ok ev, idx') => (.ok (.diceFudge ev), idx')

/-! ## Command layer (src/dicey/src/command.rs) -/

/-- Model of `RepeatedMode` (src/dicey/src/command.rs lines 216-221). -/
inductive RepeatedMode : Type where
  | Sum
  | Sort
  | None
deriving DecidableEq, Repr

/-- Model of `RepeatedCommand` (src/dicey/src/command.rs lines 210-214). -/
structure RepeatedCommand : Type where
  count : Nat
  mode : RepeatedMode
deriving DecidableEq, Repr

/-- Model of `Command` (src/dicey/src/command.rs lines 39-44); the Rust field
`repeat` is named `repeated` here (`repeat` is reserved in Lean). -/
structure Command : Type where
  expression : Expr
  repeated : Option RepeatedCommand
  reason : Option String
deriving DecidableEq, Repr

/-- Model of `EvaluatedCommand` (src/dicey/src/command.rs lines 87-93). -/
structure EvaluatedCommand : Type where
  total : Option F
  expressions : List EvalExpr
  repeated : Option RepeatedCommand
  reason : Option String
deriving DecidableEq, Repr

/-- Model of `(0..count).map(|_| self.expression.roll_with_source(rng))
.collect::<Result<Vec<_>>>()` (src/dicey/src/command.rs lines 57-59):
evaluate the expression `n` times in order, stopping at the first error. -/
def evalN (e : Expr) (n : Nat) (src : Nat → Nat) (idx : Nat) :
    Except RollError (List EvalExpr) × Nat :=
  match n with
  | 0 => (.ok [], idx)
  | m + 1 =>
    match e.eval src idx with
    | (.error err, idx') => (.error err, idx')
    | (.ok v, idx') =>
      match evalN e m src idx' with
      | (.error err, idx'') => (.error err, idx'')
      | (.ok vs, idx'') => (.ok (v :: vs), idx'')

/-- The comparator `|a, b| f64::total_cmp(&a.total(), &b.total())` used by
`RepeatedMode::Sort` (src/dicey/src/command.rs line 66), as a `≤` test. -/
def totalFle (a b : EvalExpr) : Bool := F.fle a.total b.total

/-- Model of `Rollable::roll_with_source for Command` (src/dicey/src/command.rs
lines 52-84): evaluate `count` times (1 when not repeated), then compute the
total by mode; `Sort` stably sorts the evaluations by `total_cmp` on their
totals and leaves the total `None`. -/
def Command.roll_with_source (cmd : Command) (src : Nat → Nat) (idx : Nat) :
    Except RollError EvaluatedCommand × Nat :=
  let count := (cmd.repeated.map RepeatedCommand.count).getD 1
  match evalN cmd.expression count src idx with
  | (.error e, idx') => (.error e, idx')
  | (.ok expressions, idx') =>
    let outExprs : List EvalExpr :=
      match cmd.repeated with
      | some rc =>
        match rc.mode with
        | .Sort => List.insertionSort (fun a b => totalFle a b = true) expressions
        | _ => expressions
      | none => expressions
    let total : Option F :=
      match cmd.repeated with
      | some rc =>
        match rc.mode with
        | .Sum => some (expressions.foldl (fun x y => F.add x y.total) (.finite 0))
        | .Sort => none
        | .None => none
      | none => expressions.head?.map EvalExpr.total
    (.ok { total := total, expressions := outExprs,
           repeated := cmd.repeated, reason := cmd.reason }, idx')

/-! ## Display (the `Display` impls giving the canonical source form)

These model the plain (non-markdown) `Display` impls used by
`Expression::parse(format!("{e}"))` round-trips. -/

/-- Model of `Display for KeepOrDrop` (src/dicey/src/dice_expression.rs lines
177-186). -/
def dispKeepOrDrop : KeepOrDrop → String
  | .KeepHi n => "K" ++ toString n
  | .KeepLo n => "k" ++ toString n
  | .DropHi n => "D" ++ toString n
  | .DropLo n => "d" ++ toString n

/-- Model of `Display for PerRollModifier` (src/dicey/src/dice_expression.rs
lines 188-197). -/
def dispPerRoll {R : Type} [RollRepr R] : PerRollModifier R → String
  | .RerollOnce r => "r" ++ RollRepr.str r
  | .RerollUnlimited r => "ir" ++ RollRepr.str r
  | .ExplodeOnce r => "e" ++ RollRepr.str r
  | .ExplodeUnlimited r => "!" ++ RollRepr.str r

/-- Model of `Display for RollBatchModifier` (src/dicey/src/dice_expression.rs
lines 166-175). -/
def dispBatchMod {R : Type} [RollRepr R] : RollBatchModifier R → String
  | .KeepOrDrop op => dispKeepOrDrop op
  | .PerRollModifier op => dispPerRoll op

/-- Model of the aggregator part of `Display for RollSpec`
(src/dicey/src/dice_expression.rs lines 329-358): `t`, `f`, `tt` in that
order, or the sorted target enum. -/
def dispAggregator {R : Type} [LinearOrder R] [RollRepr R] : Aggregator R → String
  | .TargetFailureDouble t f tt =>
    (match t with | some n => " t" ++ RollRepr.str n | none => "") ++
    (match f with | some n => " f" ++ RollRepr.str n | none => "") ++
    (match tt with | some n => " tt" ++ RollRepr.str n | none => "")
  | .TargetEnum items =>
    " t[" ++ String.intercalate ", " ((sortByKey (fun x => x) items).map RollRepr.str) ++ "]"
  | .Sum => ""

/-- The `{modifiers}` part of `Display for RollSpec`: each modifier preceded
by a space (src/dicey/src/dice_expression.rs lines 323-328). -/
def dispMods {R : Type} [RollRepr R] (mods : List (RollBatchModifier R)) : String :=
  String.join (mods.map (fun m => " " ++ dispBatchMod m))

/-- Model of the plain `Display` for parsed expressions: `i64` and
`RollableFloat` literals (src/dicey/src/expression.rs lines 133-142, 154-158),
binary operators (lines 66-81, 91-95), blocks (lines 175-180), variable
references (lines 221-226) and `RollSpec` (src/dicey/src/dice_expression.rs
lines 321-365). -/
def Expr.fmt : Expr → String
  | .int i => toString i
  | .float x => x.display
  | .binary op l r => l.fmt ++ op.str ++ r.fmt
  | .block e => "(" ++ e.fmt ++ ")"
  | .var nm e => "($" ++ nm ++ ": " ++ e.fmt ++ ")"
  | .diceBasic sides count mods agg =>
    toString count ++ "d" ++ toString sides ++ dispMods mods ++ dispAggregator agg
  | .diceFudge count mods agg =>
    toString count ++ "dF" ++ dispMods mods ++ dispAggregator agg

/-! ## Parser

The pest grammar file `dicey.pest` is not part of the sources (only the
semantic actions in src/dicey/src/parser.rs, expression.rs, dice_expression.rs
are).  Modelled from the spec: the grammar sketch of spec §6 and the token
descriptions of §4.2 (`command := expr [':' text]`, `expr := term (('+'|'-')
term)*`, `term := factor (('*'|'/') factor)*`, `factor := float | integer |
dice | '(' expr ')' | '$' ident`, `dice := [count] 'd' (integer|'F'|'f') mod*
agg*`), with liberal whitespace between tokens.  The semantic actions —
numeric bounds, `limit_dice` at parse, the aggregator state machine of
`parse_dice_inner`, undefined-variable errors — follow the source.  Parsing is
fuelled to make the recursion structural; the fuel chosen by the entry point
is always sufficient for the inputs considered. -/

/-- Drops leading whitespace (tokens are whitespace-insensitive). -/
def skipWs (cs : List Char) : List Char := cs.dropWhile (fun c => c.isWhitespace)

/-- Splits off a leading run of ASCII digits. -/
def takeDigits (cs : List Char) : List Char × List Char :=
  (cs.takeWhile Char.isDigit, cs.dropWhile Char.isDigit)

/-- Numeric value of a digit string. -/
def digitsVal (ds : List Char) : Nat :=
  ds.foldl (fun a c => a * 10 + (c.toNat - 48)) 0

/-- Rust `ParseIntError`: positive overflow. -/
def overflowErr : RollError := .ParseError "number too large to fit in target type"

/-- Rust `ParseIntError`: negative overflow. -/
def negOverflowErr : RollError := .ParseError "number too small to fit in target type"

/-- Rust `ParseIntError`: zero for a non-zero type (`NonZeroU32`). -/
def zeroErr : RollError := .ParseError "number would be zero for non-zero type"

/-- Rust `ParseIntError`: invalid digit. -/
def invalidDigitErr : RollError := .ParseError "invalid digit found in string"

/-- A pest grammar mismatch (the exact pest message is not modelled). -/
def grammarErr : RollError := .ParseError "grammar mismatch"

/-- Model of parsing an unsigned machine integer from a digit string:
overflow when the value does not fit below `bound`. -/
def parseBoundedNat (bound : Nat) (ds : List Char) : Except RollError Nat :=
  if ds = [] then .error (.ParseError "cannot parse integer from empty string")
  else if digitsVal ds < bound then .ok (digitsVal ds)
  else .error overflowErr

/-- Model of `parse::<usize>` (64-bit). -/
def parseUsize (ds : List Char) : Except RollError Nat := parseBoundedNat (2 ^ 64) ds

/-- Model of `parse::<u32>`. -/
def parseU32 (ds : List Char) : Except RollError Nat := parseBoundedNat (2 ^ 32) ds

/-- Model of `parse::<BasicDice>` (`NonZeroU32::from_str`). -/
def parseNonZeroU32 (ds : List Char) : Except RollError Nat :=
  match parseU32 ds with
  | .error e => .error e
  | .ok 0 => .error zeroErr
  | .ok n => .ok n

/-- Model of `parse::<i64>` from an optional sign and digit string. -/
def parseI64 (neg : Bool) (ds : List Char) : Except RollError Int :=
  if ds = [] then .error invalidDigitErr
  else if neg then
    if digitsVal ds ≤ 2 ^ 63 then .ok (-(digitsVal ds : ℤ)) else .error negOverflowErr
  else
    if digitsVal ds < 2 ^ 63 then .ok (digitsVal ds : ℤ) else .error overflowErr

/-- Value parser for basic-dice roll values (`u32`): a digit run, or `none`
when no value token is present. -/
def basicValP (cs : List Char) : Option (Except RollError Nat × List Char) :=
  match takeDigits cs with
  | ([], _) => none
  | (ds, rest) => some (parseU32 ds, rest)

/-- Value parser for fudge roll values (`FudgeRoll::from_str`,
src/dicey/src/dice_kind/fudge.rs lines 50-77): the textual forms `(+)`,
`( )`, `(-)`, or an `i8` numeral which must lie in `{-1, 0, 1}`. -/
def fudgeValP (cs : List Char) : Option (Except RollError Int × List Char) :=
  match cs with
  | '(' :: '+' :: ')' :: rest => some (.ok 1, rest)
  | '(' :: ' ' :: ')' :: rest => some (.ok 0, rest)
  | '(' :: '-' :: ')' :: rest => some (.ok (-1), rest)
  | _ =>
    let neg : Bool := match cs with | '-' :: _ => true | _ => false
    let pos : Bool := match cs with | '+' :: _ => true | _ => false
    let body := if neg || pos then cs.tail else cs
    match takeDigits body with
    | ([], _) => none
    | (ds, rest) =>
      let v : ℤ := if neg then -(digitsVal ds : ℤ) else (digitsVal ds : ℤ)
      if v > 1 then some (.error overflowErr, rest)
      else if v < -1 then some (.error negOverflowErr, rest)
      else some (.ok v, rest)

/-- Parses the bracketed value list of a target enum `t[v, v, …]`. -/
def parseEnumList {R : Type} (valp : List Char → Option (Except RollError R × List Char)) :
    Nat → List Char → List R → Except RollError (List R × List Char)
  | 0, _, _ => .error grammarErr
  | fuel + 1, cs, acc =>
    match valp (skipWs cs) with
    | none => .error grammarErr
    | some (res, rest) =>
      match res with
      | .error e => .error e
      | .ok v =>
        match skipWs rest with
        | ',' :: rest' => parseEnumList valp fuel rest' (acc ++ [v])
        | ']' :: rest' => .ok (acc ++ [v], rest')
        | _ => .error grammarErr

/-- Parses the modifier/aggregator options of a dice expression and folds them
exactly as `parse_dice_inner` does (src/dicey/src/dice_expression.rs lines
578-692): modifiers in source order, the `t`/`f`/`tt` state machine with its
`Invalid targets` errors, and the unconditional overwrite for a target enum.
`sides` is the explode default (`dice.max()`). -/
def parseModsAgg {R : Type} [LinearOrder R]
    (valp : List Char → Option (Except RollError R × List Char)) (sides : R) :
    Nat → List Char → List (RollBatchModifier R) → Aggregator R →
    Except RollError (List (RollBatchModifier R) × Aggregator R × List Char)
  | 0, _, _, _ => .error grammarErr
  | fuel + 1, cs, mods, agg =>
    match skipWs cs with
    | 'i' :: 'r' :: rest =>
      match valp rest with
      | none => .ok (mods, agg, skipWs cs)
      | some (res, rest') =>
        match res with
        | .error e => .error e
        | .ok v => parseModsAgg valp sides fuel rest'
            (mods ++ [.PerRollModifier (.RerollUnlimited v)]) agg
    | 'i' :: 'e' :: rest =>
      match valp rest with
      | none => parseModsAgg valp sides fuel rest
          (mods ++ [.PerRollModifier (.ExplodeUnlimited sides)]) agg
      | some (res, rest') =>
        match res with
        | .error e => .error e
        | .ok v => parseModsAgg valp sides fuel rest'
            (mods ++ [.PerRollModifier (.ExplodeUnlimited v)]) agg
    | '!' :: rest =>
      match valp rest with
      | none => parseModsAgg valp sides fuel rest
          (mods ++ [.PerRollModifier (.ExplodeUnlimited sides)]) agg
      | some (res, rest') =>
        match res with
        | .error e => .error e
        | .ok v => parseModsAgg valp sides fuel rest'
            (mods ++ [.PerRollModifier (.ExplodeUnlimited v)]) agg
    | 'r' :: rest =>
      match valp rest with
      | none => .ok (mods, agg, skipWs cs)
      | some (res, rest') =>
        match res with
        | .error e => .error e
        | .ok v => parseModsAgg valp sides fuel rest'
            (mods ++ [.PerRollModifier (.RerollOnce v)]) agg
    | 'e' :: rest =>
      match valp rest with
      | none => parseModsAgg valp sides fuel rest
          (mods ++ [.PerRollModifier (.ExplodeOnce sides)]) agg
      | some (res, rest') =>
        match res with
        | .error e => .error e
        | .ok v => parseModsAgg valp sides fuel rest'
            (mods ++ [.PerRollModifier (.ExplodeOnce v)]) agg
    | 'K' :: rest =>
      match takeDigits rest with
      | ([], _) => .ok (mods, agg, skipWs cs)
      | (ds, rest') =>
        match parseUsize ds with
        | .error e => .error e
        | .ok n => parseModsAgg valp sides fuel rest'
            (mods ++ [.KeepOrDrop (.KeepHi n)]) agg
    | 'k' :: rest =>
      match takeDigits rest with
      | ([], _) => .ok (mods, agg, skipWs cs)
      | (ds, rest') =>
        match parseUsize ds with
        | .error e => .error e
        | .ok n => parseModsAgg valp sides fuel rest'
            (mods ++ [.KeepOrDrop (.KeepLo n)]) agg
    | 'D' :: rest =>
      match takeDigits rest with
      | ([], _) => .ok (mods, agg, skipWs cs)
      | (ds, rest') =>
        match parseUsize ds with
        | .error e => .error e
        | .ok n => parseModsAgg valp sides fuel rest'
            (mods ++ [.KeepOrDrop (.DropHi n)]) agg
    | 'd' :: rest =>
      match takeDigits rest with
      | ([], _) => .ok (mods, agg, skipWs cs)
      | (ds, rest') =>
        match parseUsize ds with
        | .error e => .error e
        | .ok n => parseModsAgg valp sides fuel rest'
            (mods ++ [.KeepOrDrop (.DropLo n)]) agg
    | 't' :: 't' :: rest =>
      match valp rest with
      | none => .ok (mods, agg, skipWs cs)
      | some (res, rest') =>
        match res with
        | .error e => .error e
        | .ok v =>
          match agg with
          | .TargetFailureDouble t f Option.none =>
            parseModsAgg valp sides fuel rest' mods (.TargetFailureDouble t f (some v))
          | .Sum =>
            parseModsAgg valp sides fuel rest' mods
              (.TargetFailureDouble Option.none Option.none (some v))
          | _ => .error (.ParamError "Invalid targets 2")
    | 't' :: '[' :: rest =>
      match parseEnumList valp fuel rest [] with
      | .error e => .error e
      | .ok (vals, rest') =>
        parseModsAgg valp sides fuel rest' mods (.TargetEnum (mkTargetSet vals))
    | 't' :: rest =>
      match valp rest with
      | none => .ok (mods, agg, skipWs cs)
      | some (res, rest') =>
        match res with
        | .error e => .error e
        | .ok v =>
          match agg with
          | .TargetFailureDouble Option.none f tt =>
            parseModsAgg valp sides fuel rest' mods (.TargetFailureDouble (some v) f tt)
          | .Sum =>
            parseModsAgg valp sides fuel rest' mods
              (.TargetFailureDouble (some v) Option.none Option.none)
          | _ => .error (.ParamError "Invalid targets 1")
    | 'f' :: rest =>
      match valp rest with
      | none => .ok (mods, agg, skipWs cs)
      | some (res, rest') =>
        match res with
        | .error e => .error e
        | .ok v =>
          match agg with
          | .TargetFailureDouble t Option.none tt =>
            parseModsAgg valp sides fuel rest' mods (.TargetFailureDouble t (some v) tt)
          | .Sum =>
            parseModsAgg valp sides fuel rest' mods
              (.TargetFailureDouble Option.none (some v) Option.none)
          | _ => .error (.ParamError "Invalid targets 3")
    | other => .ok (mods, agg, other)

/-- The exact-value threshold at which IEEE-754 binary64 round-to-nearest-even
overflows to infinity: `2^1024 - 2^970` (the midpoint above `f64::MAX`).
It is an integer, so a decimal literal overflows exactly when the integer
part of its magnitude reaches it (the fractional part lies in `[0, 1)`). -/
def f64OverflowNat : Nat := 2 ^ 1024 - 2 ^ 970

/-- The rational value of a float literal `ds . fds` with an optional minus
sign. -/
def floatLitVal (neg : Bool) (ds fds : List Char) : ℚ :=
  let m : ℚ := (digitsVal ds : ℚ) + (digitsVal fds : ℚ) / ((10 : ℚ) ^ fds.length)
  if neg then -m else m

/-- Model of `str.parse::<f64>()` on a decimal literal: values at or beyond
the overflow threshold saturate to `inf`/`-inf` (as Rust's `f64::from_str`
does, without an error); finite values are kept exact (rounding to the
nearest binary64 is not modelled). -/
def floatOfLit (neg : Bool) (ds fds : List Char) : F :=
  if digitsVal ds ≥ f64OverflowNat then (if neg then .negInf else .inf)
  else .finite (floatLitVal neg ds fds)

/-- Parses the part of a dice expression after the `d`: the dice kind
(`integer | 'F' | 'f'`) followed by modifiers and aggregators.  The count
handling models `parse_dice` (src/dicey/src/dice_expression.rs lines 542-563):
`parse::<usize>` on the count digits (1 when absent), then
`limit_dice(count, "parse")`, then the kind. -/
def parseDiceTail (fuel : Nat) (countDs : Option (List Char)) (cs : List Char) :
    Except RollError (Expr × List Char) :=
  match (match countDs with | Option.none => .ok 1 | some ds => parseUsize ds :
      Except RollError Nat) with
  | .error e => .error e
  | .ok count =>
    match limit_dice count "parse" with
    | .error e => .error e
    | .ok _ =>
      match cs with
      | 'F' :: rest =>
        match parseModsAgg fudgeValP (1 : ℤ) fuel rest [] .Sum with
        | .error e => .error e
        | .ok (mods, agg, rest') => .ok (.diceFudge count mods agg, rest')
      | 'f' :: rest =>
        match parseModsAgg fudgeValP (1 : ℤ) fuel rest [] .Sum with
        | .error e => .error e
        | .ok (mods, agg, rest') => .ok (.diceFudge count mods agg, rest')
      | _ =>
        match takeDigits cs with
        | ([], _) => .error grammarErr
        | (ds, rest) =>
          match parseNonZeroU32 ds with
          | .error e => .error e
          | .ok sides =>
            match parseModsAgg basicValP sides fuel rest [] .Sum with
            | .error e => .error e
            | .ok (mods, agg, rest') => .ok (.diceBasic sides count mods agg, rest')

/-- True when a dice expression starts here: a `d` followed by a digit or a
fudge marker. -/
def diceStart (cs : List Char) : Bool :=
  match cs with
  | 'd' :: c :: _ => c.isDigit || c = 'F' || c = 'f'
  | _ => false

/-- Parses a number-or-dice factor: an optional sign directly followed by
digits, then either a float (`.` and digits), a dice expression (`d` and a
kind, only without a sign), or an `i64` integer literal. -/
def parseNumFactor (fuel : Nat) (cs : List Char) : Except RollError (Expr × List Char) :=
  let neg : Bool := match cs with | '-' :: _ => true | _ => false
  let pos : Bool := match cs with | '+' :: _ => true | _ => false
  let body := if neg || pos then cs.tail else cs
  match takeDigits body with
  | ([], _) => .error invalidDigitErr
  | (ds, rest) =>
    match rest with
    | '.' :: r2 =>
      match takeDigits r2 with
      | ([], _) =>
        -- no digits after the point: the float rule fails, the integer matches
        match parseI64 neg ds with
        | .error e => .error e
        | .ok i => .ok (.int i, rest)
      | (fds, r3) => .ok (.float (floatOfLit neg ds fds), r3)
    | _ =>
      if !neg && !pos && diceStart rest then
        parseDiceTail fuel (some ds) rest.tail
      else
        match parseI64 neg ds with
        | .error e => .error e
        | .ok i => .ok (.int i, rest)

mutual

/-- Parses `factor := float | integer | dice | '(' expr ')' | '$' ident`.
Variable references are resolved against the empty map (plain
`Expression::parse`), so they always yield the undefined-variable error
(src/dicey/src/expression.rs lines 305-318). -/
def parseFactorL : Nat → List Char → Except RollError (Expr × List Char)
  | 0, _ => .error grammarErr
  | fuel + 1, cs =>
    match skipWs cs with
    | '(' :: rest =>
      match parseExprL fuel rest with
      | .error e => .error e
      | .ok (e, rest') =>
        match skipWs rest' with
        | ')' :: rest'' => .ok (.block e, rest'')
        | _ => .error grammarErr
    | '$' :: rest =>
      .error (.ParamError ("Reference to undefined variable \"" ++
        (rest.takeWhile Char.isAlphanum).asString ++ "\""))
    | 'd' :: rest =>
      if diceStart ('d' :: rest) then parseDiceTail fuel Option.none rest
      else .error grammarErr
    | other => parseNumFactor fuel other

/-- Parses `term := factor (('*'|'/') factor)*`, left-associated. -/
def parseTermL : Nat → List Char → Except RollError (Expr × List Char)
  | 0, _ => .error grammarErr
  | fuel + 1, cs =>
    match parseFactorL fuel cs with
    | .error e => .error e
    | .ok (f, rest) => parseTermLoop fuel f rest

/-- The `(('*'|'/') factor)*` loop. -/
def parseTermLoop : Nat → Expr → List Char → Except RollError (Expr × List Char)
  | 0, _, _ => .error grammarErr
  | fuel + 1, acc, cs =>
    match skipWs cs with
    | '*' :: rest =>
      match parseFactorL fuel rest with
      | .error e => .error e
      | .ok (f, rest') => parseTermLoop fuel (.binary .mul acc f) rest'
    | '/' :: rest =>
      match parseFactorL fuel rest with
      | .error e => .error e
      | .ok (f, rest') => parseTermLoop fuel (.binary .div acc f) rest'
    | _ => .ok (acc, cs)

/-- Parses `expr := term (('+'|'-') term)*`, left-associated (the precedence
climber of src/dicey/src/parser.rs lines 10-23). -/
def parseExprL : Nat → List Char → Except RollError (Expr × List Char)
  | 0, _ => .error grammarErr
  | fuel + 1, cs =>
    match parseTermL fuel cs with
    | .error e => .error e
    | .ok (t, rest) => parseExprLoop fuel t rest

/-- The `(('+'|'-') term)*` loop. -/
def parseExprLoop : Nat → Expr → List Char → Except RollError (Expr × List Char)
  | 0, _, _ => .error grammarErr
  | fuel + 1, acc, cs =>
    match skipWs cs with
    | '+' :: rest =>
      match parseTermL fuel rest with
      | .error e => .error e
      | .ok (t, rest') => parseExprLoop fuel (.binary .add acc t) rest'
    | '-' :: rest =>
      match parseTermL fuel rest with
      | .error e => .error e
      | .ok (t, rest') => parseExprLoop fuel (.binary .sub acc t) rest'
    | _ => .ok (acc, cs)

end

/-- Parses `single_command := expr [':' reason]` and returns the expression
(as `Expression::parse` does, dropping the reason,
src/dicey/src/command.rs lines 12-36 and 255-268). -/
def parseSingleCommandCs (fuel : Nat) (cs : List Char) : Except RollError Expr :=
  match parseExprL fuel cs with
  | .error e => .error e
  | .ok (e, rest) =>
    match skipWs rest with
    | [] => .ok e
    | ':' :: _ => .ok e
    | _ => .error grammarErr

/-- Model of `Expression::parse` (plain, empty variable map). -/
def parseExpression (s : String) : Except RollError Expr :=
  parseSingleCommandCs (2 * s.length + 16) s.data

/-! ## Claim proofs -/

instance {R : Type} : Inhabited (RollBatchModifier R) := ⟨.KeepOrDrop (.KeepHi 0)⟩

instance {R : Type} : Inhabited (ModifiedRollBatch R) := ⟨⟨[]⟩⟩

/-- Folding `+ g r` from `z` is `z` plus the sum of the mapped list. -/
theorem foldl_add_intmap {α : Type} (g : α → ℤ) :
    ∀ (l : List α) (z : ℤ), l.foldl (fun s r => s + g r) z = z + (l.map g).sum := by
  intro l
  induction l with
  | nil => simp
  | cons x xs ih => intro z; simp [ih, add_assoc]

/-- The `TargetFailureDouble` scoring as the spec words it: `+2` if the double
threshold is set and met, else `+1` if the target is set and met, else `-1`
if the failure threshold is set and met, else `0`. -/
def specTfdScore {R : Type} [LinearOrder R] (t f d : Option R) (r : R) : ℤ :=
  if d.any (fun dv => decide (dv ≤ r)) then 2
  else if t.any (fun tv => decide (tv ≤ r)) then 1
  else if f.any (fun fv => decide (r ≤ fv)) then -1
  else 0

/-- C3: `TargetFailureDouble(t?, f?, d?)` scores each roll by the priority
`d` over `t` over `f` (+2 / +1 / -1 / 0, never a cumulative combination),
and the batch total is the sum of the per-roll scores. -/
theorem targetFailureDouble_priority_scoring {R : Type} [LinearOrder R] [RollRepr R]
    (t f d : Option R) (r : R) (agg : Aggregator R) (rolls : List R) :
    (Aggregator.TargetFailureDouble t f d).apply_single r = specTfdScore t f d r ∧
    agg.total rolls = (rolls.map agg.apply_single).sum := by
  constructor
  · cases d <;> cases t <;> cases f <;> rfl
  · simpa using foldl_add_intmap agg.apply_single rolls 0

/-- A result that is the `ParamError` kind. -/
def isParamError {α : Type} (r : Except RollError α) : Prop :=
  ∃ msg, r = .error (.ParamError msg)

/-- C5: `DropHi n` behaves exactly as `KeepLo (len - n)` and `DropLo n` as
`KeepHi (len - n)` when `n ≤ len`; every `KeepOrDrop` with `n` larger than
the batch returns a parameter error. -/
theorem dropHiLo_equiv_keepLoHi {T K : Type} [Inhabited T] [LinearOrder K]
    (v : List T) (f : T → K) (n : Nat) :
    (n ≤ v.length →
      (KeepOrDrop.DropHi n).apply v f = (KeepOrDrop.KeepLo (v.length - n)).apply v f ∧
      (KeepOrDrop.DropLo n).apply v f = (KeepOrDrop.KeepHi (v.length - n)).apply v f) ∧
    (v.length < n →
      isParamError ((KeepOrDrop.KeepHi n).apply v f) ∧
      isParamError ((KeepOrDrop.KeepLo n).apply v f) ∧
      isParamError ((KeepOrDrop.DropHi n).apply v f) ∧
      isParamError ((KeepOrDrop.DropLo n).apply v f)) := by
  constructor
  · intro h
    constructor <;> simp [KeepOrDrop.apply, h]
  · intro h
    have hgt : n > v.length := h
    have hns : ¬ n ≤ v.length := Nat.not_le_of_lt h
    exact ⟨⟨"Not enough dice to keep or drop", by simp [KeepOrDrop.apply, keep_low, hgt]⟩,
      ⟨"Not enough dice to keep or drop", by simp [KeepOrDrop.apply, keep_low, hgt]⟩,
      ⟨"Cannot drop " ++ toString n ++ " dice when there are only " ++ toString v.length,
        by simp [KeepOrDrop.apply, hns]⟩,
      ⟨"Cannot drop " ++ toString n ++ " dice when there are only " ++ toString v.length,
        by simp [KeepOrDrop.apply, hns]⟩⟩

/-- Witness for C5 at a concrete batch: `DropHi 1 = KeepLo 2` on `[1,2,3]`,
and `KeepHi 5` on a 3-element batch is a parameter error. -/
theorem dropHiLo_equiv_keepLoHi_witness :
    (KeepOrDrop.DropHi 1).apply ([1, 2, 3] : List ℕ) (fun x => x) =
      (KeepOrDrop.KeepLo 2).apply ([1, 2, 3] : List ℕ) (fun x => x) ∧
    isParamError ((KeepOrDrop.KeepHi 5).apply ([1, 2, 3] : List ℕ) (fun x => x)) :=
  ⟨((dropHiLo_equiv_keepLoHi [1, 2, 3] (fun x => x) 1).1 (by decide)).1,
   ((dropHiLo_equiv_keepLoHi [1, 2, 3] (fun x => x) 5).2 (by decide)).1⟩

/-- C8: the `after()` projection yields `[before]` for `None`, `[]` for
`Drop`, the last reroll for `Reroll`, `before` followed by the tail for
`Explode`; and `PerRollModifier::apply` never constructs an empty `Reroll`
or `Explode` (it collapses to `None`). -/
theorem modifiedRoll_after_projection {R : Type} [LinearOrder R] [RollRepr R] :
    (∀ b : R, (ModifiedRoll.mk b .none).after = [b]) ∧
    (∀ b : R, (ModifiedRoll.mk b .drop).after = []) ∧
    (∀ (b : R) (rs : List R) (h : rs ≠ []),
      (ModifiedRoll.mk b (.reroll rs)).after = [rs.getLast h]) ∧
    (∀ (b : R) (rs : List R), (ModifiedRoll.mk b (.explode rs)).after = b :: rs) ∧
    (∀ (m : PerRollModifier R) (dice : DiceKindG R) (roll : R) (src : Nat → Nat)
      (idx : Nat) (r : ModifiedRoll R) (idx' : Nat),
      m.apply dice roll src idx = (.ok r, idx') →
      r.modifier ≠ .reroll [] ∧ r.modifier ≠ .explode []) := by
  refine ⟨fun b => rfl, fun b => rfl, fun b rs h => ?_, fun b rs => rfl, ?_⟩
  · simp [ModifiedRoll.after, List.getLast?_eq_getLast rs h]
  · intro m dice roll src idx r idx' h
    cases m <;> simp only [PerRollModifier.apply] at h
    · split at h <;>
        (simp only [Prod.mk.injEq, Except.ok.injEq] at h; rw [← h.1]; simp)
    · split at h
      · simp at h
      · split at h
        · simp at h
        · rename_i rs' idx'' hru
          split at h <;>
            (rename_i hne
             simp only [Prod.mk.injEq, Except.ok.injEq] at h; rw [← h.1]; simp_all)
    · split at h <;>
        (simp only [Prod.mk.injEq, Except.ok.injEq] at h; rw [← h.1]; simp)
    · split at h
      · simp at h
      · split at h
        · simp at h
        · rename_i rs' idx'' hru
          split at h <;>
            (rename_i hne
             simp only [Prod.mk.injEq, Except.ok.injEq] at h; rw [← h.1]; simp_all)

/-- Witness for C8 at concrete inputs: a nonempty reroll's `after` is its
last entry, and a `RerollOnce` application never carries an empty reroll. -/
theorem modifiedRoll_after_projection_witness :
    (ModifiedRoll.mk (1 : ℕ) (.reroll [3])).after = [List.getLast [3] (by decide)] ∧
    ((ModifiedRoll.mk (1 : ℕ) (.reroll [3])).modifier ≠ .reroll [] ∧
     (ModifiedRoll.mk (1 : ℕ) (.reroll [3])).modifier ≠ .explode []) :=
  ⟨(modifiedRoll_after_projection.2.2.1 1 [3] (by decide)),
   (modifiedRoll_after_projection.2.2.2.2 (.RerollOnce 2) (basicKind 6) 1 (fun _ => 3) 0
     (ModifiedRoll.mk 1 (.reroll [3])) 1 rfl)⟩

instance exceptDecEq {e a : Type} [DecidableEq e] [DecidableEq a] : DecidableEq (Except e a)
  | .error x, .error y =>
    if h : x = y then .isTrue (by rw [h]) else .isFalse (by simp [h])
  | .error _, .ok _ => .isFalse (by simp)
  | .ok _, .error _ => .isFalse (by simp)
  | .ok x, .ok y =>
    if h : x = y then .isTrue (by rw [h]) else .isFalse (by simp [h])

/-- A float literal whose value (`10^309`) exceeds `f64::MAX`, so Rust's
`f64::from_str` parses it to infinity. -/
def bigFloatStr : String := "1" ++ String.mk (List.replicate 309 '0') ++ ".0"

set_option maxRecDepth 40000 in
/-- C2 (failing input): the 312-character float literal `10⋯0.0` parses to the
float `inf`, whose display is `"inf"` — and `"inf"` does not parse.  So
`format(parse(format(e))) = format(e)` fails (the re-parse errors), breaking
the round-trip that the fuzz target `parse_roundtrip.rs` asserts. -/
theorem float_overflow_breaks_roundtrip :
    parseExpression bigFloatStr = .ok (.float F.inf) ∧
    Expr.fmt (.float F.inf) = "inf" ∧
    (parseExpression "inf").isOk = false := by
  refine ⟨by decide, rfl, by decide⟩

set_option maxRecDepth 8000 in
/-- C10: a dice count of zero is accepted (`parse_dice` imposes only the
upper limit): `0d6` parses and rolls to an empty batch with Sum total 0, and
`0d6 ir6` parses and rolls without any error — the infinite-reroll guard is
never reached because the per-roll modifier is applied once per (absent)
roll. -/
theorem zero_dice_accepted :
    parseExpression "0d6" = .ok (.diceBasic 6 0 [] .Sum) ∧
    parseExpression "0d6 ir6" =
      .ok (.diceBasic 6 0 [.PerRollModifier (.RerollUnlimited 6)] .Sum) ∧
    (∀ (src : Nat → Nat) (idx : Nat),
      (basicSpec 6 0 [] .Sum).dyn_roll src idx =
        (.ok { total := 0, history := [], final_rolls := [] }, idx)) ∧
    (∀ (src : Nat → Nat) (idx : Nat),
      (basicSpec 6 0 [.PerRollModifier (.RerollUnlimited 6)] .Sum).dyn_roll src idx =
        (.ok { total := 0,
               history := [(.PerRollModifier (.RerollUnlimited 6), ⟨[]⟩)],
               final_rolls := [] }, idx)) := by
  exact ⟨by decide, by decide, fun src idx => rfl, fun src idx => rfl⟩

/-- C6 (counterexample): a `RollSpec` containing an unlimited reroll with
threshold `6 ≥ max = 6` nevertheless rolls successfully when the batch is
empty (`0d6 ir6`): the guard sits inside the per-roll application and is
never reached. -/
theorem unlimited_reroll_guard_empty_batch_ok :
    (6 : ℕ) ≥ (basicKind 6).max ∧
    ((basicSpec 6 0 [.PerRollModifier (.RerollUnlimited 6)] .Sum).dyn_roll
        (fun i => i + 1) 0).1 =
      .ok { total := 0,
            history := [(.PerRollModifier (.RerollUnlimited 6), ⟨[]⟩)],
            final_rolls := [] } :=
  ⟨le_refl 6, rfl⟩

/-- A successful `limit_dice` check means the length is within the limit. -/
theorem limit_dice_ok_le {n : Nat} {s : String} {u : Unit}
    (h : limit_dice n s = .ok u) : n ≤ MAX_NUMBER_OF_DICE := by
  unfold limit_dice at h
  split at h
  · simp at h
  · omega

/-- Invariant of the modifier loop of `dyn_roll`: on success the produced
history extends the accumulator by one entry per remaining modifier, every
new stage's `after()` respects the dice limit, the final batch is the last
new stage's `after()` (or the entry batch when no modifiers remain), and
each new stage was produced by a successful `ModifiedRollBatch::new`. -/
theorem dynRollLoop_ok {R : Type} [Inhabited R] [LinearOrder R] [RollRepr R]
    (agg : Aggregator R) (dice : DiceKindG R) (src : Nat → Nat) :
    ∀ (mods : List (RollBatchModifier R)) (rolls : List R)
      (hist : List (RollBatchModifier R × ModifiedRollBatch R)) (idx : Nat)
      (ev : EvaluatedRollSpecG R) (idx' : Nat),
      dynRollLoop agg dice mods rolls hist src idx = (.ok ev, idx') →
      ∃ news : List (RollBatchModifier R × ModifiedRollBatch R),
        ev.history = hist ++ news ∧
        news.length = mods.length ∧
        (∀ s ∈ news, s.2.after.length ≤ MAX_NUMBER_OF_DICE) ∧
        (news = [] → ev.final_rolls = rolls) ∧
        (∀ lastS, news.getLast? = some lastS → ev.final_rolls = lastS.2.after) ∧
        (∀ i, i < mods.length →
          ∃ batch rollsI idxI idxI',
            news.getD i default = (mods.getD i default, batch) ∧
            ModifiedRollBatch.new dice rollsI (mods.getD i default) src idxI =
              (.ok batch, idxI')) := by
  intro mods
  induction mods with
  | nil =>
    intro rolls hist idx ev idx' h
    simp only [dynRollLoop, Prod.mk.injEq, Except.ok.injEq] at h
    refine ⟨[], ?_, ?_, ?_, ?_, ?_, ?_⟩ <;> simp [← h.1]
  | cons m rest ih =>
    intro rolls hist idx ev idx' h
    simp only [dynRollLoop] at h
    rcases hnew : ModifiedRollBatch.new dice rolls m src idx with ⟨res, idx1⟩
    rw [hnew] at h
    cases res with
    | error e => simp at h
    | ok next =>
      simp only at h
      rcases hl : limit_dice next.after.length "batch aggregation" with e | u
      · rw [hl] at h; simp at h
      · rw [hl] at h
        simp only at h
        obtain ⟨news', h1, h2, h3, _h4, h5, h6⟩ :=
          ih next.after (hist ++ [(m, next)]) idx1 ev idx' h
        refine ⟨(m, next) :: news', ?_, ?_, ?_, ?_, ?_, ?_⟩
        · simpa using h1
        · simpa using h2
        · intro s hs
          rcases List.mem_cons.mp hs with hs | hs
          · exact hs ▸ limit_dice_ok_le hl
          · exact h3 s hs
        · intro hc; exact absurd hc (by simp)
        · intro lastS hlast
          cases news' with
          | nil =>
            simp at hlast
            rw [← hlast]
            exact _h4 rfl
          | cons y t =>
            rw [List.getLast?_cons_cons] at hlast
            exact h5 lastS hlast
        · intro i hi
          cases i with
          | zero =>
            exact ⟨next, rolls, idx, idx1, by simp, by simpa using hnew⟩
          | succ i' =>
            obtain ⟨batch, rollsI, idxI, idxI', hb1, hb2⟩ := h6 i' (by simpa using hi)
            exact ⟨batch, rollsI, idxI, idxI', by simpa using hb1, by simpa using hb2⟩

/-- C1: on every successful roll the history has one entry per modifier, every
stage's `after()` is within the dice limit of 5000, and the final batch is
the last stage's `after()` (or the initial batch when there are no
modifiers). -/
theorem dyn_roll_final_batch_invariants {R : Type} [Inhabited R] [LinearOrder R]
    [RollRepr R] (spec : RollSpecG R) (src : Nat → Nat) (idx : Nat)
    (ev : EvaluatedRollSpecG R) (idx' : Nat)
    (h : spec.dyn_roll src idx = (.ok ev, idx')) :
    ev.history.length = spec.modifiers.length ∧
    (spec.modifiers = [] → ev.history = [] ∧
      ev.final_rolls = (rollN spec.dice spec.number_of_dice src idx).1) ∧
    (∀ lastS, ev.history.getLast? = some lastS → ev.final_rolls = lastS.2.after) ∧
    (∀ s ∈ ev.history, s.2.after.length ≤ MAX_NUMBER_OF_DICE) := by
  unfold RollSpecG.dyn_roll at h
  obtain ⟨news, h1, h2, h3, h4, h5, _h6⟩ :=
    dynRollLoop_ok spec.aggregator spec.dice src spec.modifiers
      (rollN spec.dice spec.number_of_dice src idx).1 [] 
      (rollN spec.dice spec.number_of_dice src idx).2 ev idx' h
  simp only [List.nil_append] at h1
  subst h1
  refine ⟨h2, ?_, h5, h3⟩
  intro hm
  rw [hm, List.length_nil] at h2
  have hemp : ev.history = [] := List.eq_nil_of_length_eq_zero h2
  exact ⟨hemp, h4 hemp⟩

/-- The concrete spec `2d6 K1` used by the C1 witness. -/
def c1spec : RollSpecG ℕ := basicSpec 6 2 [.KeepOrDrop (.KeepHi 1)] .Sum

/-- The evaluation of `c1spec` with draws `1, 2, …`. -/
def c1ev : EvaluatedRollSpecG ℕ :=
  { total := 2,
    history := [(.KeepOrDrop (.KeepHi 1), ⟨[⟨1, .drop⟩, ⟨2, .none⟩]⟩)],
    final_rolls := [2] }

/-- Witness for C1 on the concrete roll of `2d6 K1` with draws `1, 2`. -/
theorem dyn_roll_final_batch_invariants_witness :
    c1ev.history.length = c1spec.modifiers.length ∧
    (c1spec.modifiers = [] → c1ev.history = [] ∧
      c1ev.final_rolls = (rollN c1spec.dice c1spec.number_of_dice (fun i => i + 1) 0).1) ∧
    (∀ lastS, c1ev.history.getLast? = some lastS → c1ev.final_rolls = lastS.2.after) ∧
    (∀ s ∈ c1ev.history, s.2.after.length ≤ MAX_NUMBER_OF_DICE) :=
  dyn_roll_final_batch_invariants c1spec (fun i => i + 1) 0 c1ev 2 (by decide)

/-- On a nonempty batch, a per-roll application of a diverging unlimited
reroll (`threshold ≥ max`) cannot succeed, so a successful batch application
must have had an empty batch and produces no modified rolls. -/
theorem applyPerRoll_reroll_guard {R : Type} [LinearOrder R] [RollRepr R]
    (dice : DiceKindG R) (n : R) (rolls : List R) (src : Nat → Nat) (idx : Nat)
    (ms : List (ModifiedRoll R)) (idx2 : Nat) (hn : n ≥ dice.max)
    (h : applyPerRoll (.RerollUnlimited n) dice rolls src idx = (.ok ms, idx2)) :
    rolls = [] ∧ ms = [] := by
  cases rolls with
  | nil =>
    simp only [applyPerRoll, Prod.mk.injEq, Except.ok.injEq] at h
    exact ⟨rfl, h.1.symm⟩
  | cons r rest =>
    simp only [applyPerRoll, PerRollModifier.apply, if_pos hn] at h
    simp at h

/-- On a nonempty batch, a per-roll application of a diverging unlimited
explode (`threshold ≤ min`) cannot succeed. -/
theorem applyPerRoll_explode_guard {R : Type} [LinearOrder R] [RollRepr R]
    (dice : DiceKindG R) (n : R) (rolls : List R) (src : Nat → Nat) (idx : Nat)
    (ms : List (ModifiedRoll R)) (idx2 : Nat) (hn : n ≤ dice.min)
    (h : applyPerRoll (.ExplodeUnlimited n) dice rolls src idx = (.ok ms, idx2)) :
    rolls = [] ∧ ms = [] := by
  cases rolls with
  | nil =>
    simp only [applyPerRoll, Prod.mk.injEq, Except.ok.injEq] at h
    exact ⟨rfl, h.1.symm⟩
  | cons r rest =>
    simp only [applyPerRoll, PerRollModifier.apply, if_pos hn] at h
    simp at h

/-- C6 (amended): applying an unlimited reroll with threshold `≥ kind.max`
(or an unlimited explode with threshold `≤ kind.min`) to any roll returns the
divergence `ParamError` with the randomness cursor untouched — no die is
drawn; and a whole `RollSpec` roll containing such a modifier can only
succeed when the batch reaching that modifier's stage is empty (its history
entry holds no rolls). -/
theorem unlimited_guard_param_error {R : Type} [Inhabited R] [LinearOrder R] [RollRepr R] :
    (∀ (dice : DiceKindG R) (n roll : R) (src : Nat → Nat) (idx : Nat),
      n ≥ dice.max →
      (PerRollModifier.RerollUnlimited n).apply dice roll src idx =
        (.error (.ParamError ("Cannot infinitely reroll dice of " ++ RollRepr.str n ++
          " or lower since the maximum roll is " ++ RollRepr.str dice.max ++
          ": this would go on forever")), idx)) ∧
    (∀ (dice : DiceKindG R) (n roll : R) (src : Nat → Nat) (idx : Nat),
      n ≤ dice.min →
      (PerRollModifier.ExplodeUnlimited n).apply dice roll src idx =
        (.error (.ParamError ("Cannot infinitely explode dice of " ++ RollRepr.str n ++
          " or higher since the minimum roll is " ++ RollRepr.str dice.min ++
          ": this would go on forever")), idx)) ∧
    (∀ (spec : RollSpecG R) (src : Nat → Nat) (idx : Nat) (ev : EvaluatedRollSpecG R)
      (idx' i : Nat) (n : R),
      spec.dyn_roll src idx = (.ok ev, idx') →
      i < spec.modifiers.length →
      spec.modifiers.getD i default = .PerRollModifier (.RerollUnlimited n) →
      n ≥ spec.dice.max →
      (ev.history.getD i default).2.rolls = []) ∧
    (∀ (spec : RollSpecG R) (src : Nat → Nat) (idx : Nat) (ev : EvaluatedRollSpecG R)
      (idx' i : Nat) (n : R),
      spec.dyn_roll src idx = (.ok ev, idx') →
      i < spec.modifiers.length →
      spec.modifiers.getD i default = .PerRollModifier (.ExplodeUnlimited n) →
      n ≤ spec.dice.min →
      (ev.history.getD i default).2.rolls = []) := by
  refine ⟨?_, ?_, ?_, ?_⟩
  · intro dice n roll src idx hn
    simp [PerRollModifier.apply, if_pos hn]
  · intro dice n roll src idx hn
    simp [PerRollModifier.apply, if_pos hn]
  · intro spec src idx ev idx' i n h hi hmod hn
    unfold RollSpecG.dyn_roll at h
    obtain ⟨news, h1, _h2, _h3, _h4, _h5, h6⟩ :=
      dynRollLoop_ok spec.aggregator spec.dice src spec.modifiers
        (rollN spec.dice spec.number_of_dice src idx).1 []
        (rollN spec.dice spec.number_of_dice src idx).2 ev idx' h
    simp only [List.nil_append] at h1
    obtain ⟨batch, rollsI, idxI, idxI', hb1, hb2⟩ := h6 i hi
    rw [hmod] at hb1 hb2
    simp only [ModifiedRollBatch.new] at hb2
    rcases hap : applyPerRoll (.RerollUnlimited n) spec.dice rollsI src idxI with ⟨res, idx2⟩
    rw [hap] at hb2
    cases res with
    | error e => simp at hb2
    | ok ms =>
      simp only [Prod.mk.injEq, Except.ok.injEq] at hb2
      obtain ⟨-, hms⟩ := applyPerRoll_reroll_guard spec.dice n rollsI src idxI ms idx2 hn hap
      rw [h1, hb1, ← hb2.1, hms]
  · intro spec src idx ev idx' i n h hi hmod hn
    unfold RollSpecG.dyn_roll at h
    obtain ⟨news, h1, _h2, _h3, _h4, _h5, h6⟩ :=
      dynRollLoop_ok spec.aggregator spec.dice src spec.modifiers
        (rollN spec.dice spec.number_of_dice src idx).1 []
        (rollN spec.dice spec.number_of_dice src idx).2 ev idx' h
    simp only [List.nil_append] at h1
    obtain ⟨batch, rollsI, idxI, idxI', hb1, hb2⟩ := h6 i hi
    rw [hmod] at hb1 hb2
    simp only [ModifiedRollBatch.new] at hb2
    rcases hap : applyPerRoll (.ExplodeUnlimited n) spec.dice rollsI src idxI with ⟨res, idx2⟩
    rw [hap] at hb2
    cases res with
    | error e => simp at hb2
    | ok ms =>
      simp only [Prod.mk.injEq, Except.ok.injEq] at hb2
      obtain ⟨-, hms⟩ := applyPerRoll_explode_guard spec.dice n rollsI src idxI ms idx2 hn hap
      rw [h1, hb1, ← hb2.1, hms]

/-- Witness for C6 (amended) at `1d1 ir1` (guard fires, no draw) and
`0d6 ir6` (empty stage passes). -/
theorem unlimited_guard_param_error_witness :
    ((PerRollModifier.RerollUnlimited (1 : ℕ)).apply (basicKind 1) 1 (fun _ => 1) 0 =
      (.error (.ParamError ("Cannot infinitely reroll dice of " ++ RollRepr.str (1 : ℕ) ++
        " or lower since the maximum roll is " ++ RollRepr.str (basicKind 1).max ++
        ": this would go on forever")), 0)) ∧
    ((((basicSpec 6 0 [.PerRollModifier (.RerollUnlimited 6)] .Sum).dyn_roll
        (fun i => i + 1) 0).1.toOption.getD
        { total := 0, history := [], final_rolls := [] }).history.getD 0 default).2.rolls = [] :=
  ⟨unlimited_guard_param_error.1 (basicKind 1) 1 1 (fun _ => 1) 0 (by decide),
   unlimited_guard_param_error.2.2.1 (basicSpec 6 0 [.PerRollModifier (.RerollUnlimited 6)] .Sum)
     (fun i => i + 1) 0
     { total := 0,
       history := [(.PerRollModifier (.RerollUnlimited 6), ⟨[]⟩)],
       final_rolls := [] } 0 0 6 (by decide) (by decide) (by decide) (by decide)⟩

/-- A failed `limit_dice` check carries exactly the dice-limit message. -/
theorem limit_dice_error_msg {n : Nat} {s : String} {e : RollError}
    (h : limit_dice n s = .error e) :
    e = .ParamError ("Exceed maximum allowed number of dice (" ++
      toString MAX_NUMBER_OF_DICE ++ ") during " ++ s ++ ".") ∧
    MAX_NUMBER_OF_DICE < n := by
  unfold limit_dice at h
  split at h
  · rename_i hgt
    simp only [Except.error.injEq] at h
    exact ⟨h.symm, hgt⟩
  · simp at h

/-- Model of the repeat-count validation of `process_repeated_expr`
(src/dicey/src/command.rs lines 242-245): zero repeats are rejected, then the
dice limit is consulted with stage `"repeated roll count"`. -/
def processRepeatCount (count : Nat) : Except RollError Unit :=
  if count = 0 then .error (.ParamError "Can't repeat 0 times or negatively")
  else limit_dice count "repeated roll count"

/-- Each call of `roll_until` either succeeds or fails with exactly the
`"rerolls"` dice-limit message, and consumes a bounded number of draws: the
cursor advances by at most `5001 - acc.length + 1`. -/
theorem roll_until_cases {R : Type} (dice : DiceKindG R) (p : R → Bool) (src : Nat → Nat) :
    ∀ (k : Nat) (roll : R) (idx : Nat) (acc : List R),
      MAX_NUMBER_OF_DICE + 1 - acc.length ≤ k →
      ((∃ rs, (roll_until dice p src roll idx acc).1 = .ok rs) ∨
        (roll_until dice p src roll idx acc).1 =
          .error (.ParamError ("Exceed maximum allowed number of dice (" ++
            toString MAX_NUMBER_OF_DICE ++ ") during rerolls."))) ∧
      (roll_until dice p src roll idx acc).2 ≤
        idx + (MAX_NUMBER_OF_DICE + 1 - acc.length) + 1 := by
  intro k
  induction k with
  | zero =>
    intro roll idx acc hk
    rw [roll_until]
    split
    · exact ⟨.inl ⟨acc, rfl⟩, by omega⟩
    · split
      · rename_i e hl
        obtain ⟨he, -⟩ := limit_dice_error_msg hl
        exact ⟨.inr (by rw [he]; rfl), by omega⟩
      · rename_i u hl
        exact absurd (limit_dice_ok_le hl) (by omega)
  | succ k ih =>
    intro roll idx acc hk
    rw [roll_until]
    split
    · exact ⟨.inl ⟨acc, rfl⟩, by omega⟩
    · split
      · rename_i e hl
        obtain ⟨he, -⟩ := limit_dice_error_msg hl
        exact ⟨.inr (by rw [he]; rfl), by omega⟩
      · rename_i u hl
        have hlen : acc.length ≤ MAX_NUMBER_OF_DICE := limit_dice_ok_le hl
        have hrec := ih (dice.fromDraw (src idx)) (idx + 1) (acc ++ [dice.fromDraw (src idx)])
          (by simp; omega)
        simp only [List.length_append, List.length_singleton] at hrec
        refine ⟨hrec.1, ?_⟩
        show (roll_until dice p src (dice.fromDraw (src idx)) (idx + 1)
            (acc ++ [dice.fromDraw (src idx)])).2 ≤
          idx + (MAX_NUMBER_OF_DICE + 1 - acc.length) + 1
        have hb := hrec.2
        omega

/-- C7: the dice limit of 5000 guards every growing loop: `limit_dice`
accepts up to 5000 and otherwise produces the canonical message for its
stage; `roll_until` (unlimited reroll/explode) terminates with a bounded
number of draws and can only fail with the `"rerolls"` message; the parsed
dice count is checked at the `"parse"` stage; the repeat count at the
`"repeated roll count"` stage. -/
theorem growth_loops_bounded_limit :
    (∀ (n : Nat) (s : String), n ≤ MAX_NUMBER_OF_DICE → limit_dice n s = .ok ()) ∧
    (∀ (n : Nat) (s : String), MAX_NUMBER_OF_DICE < n →
      limit_dice n s = .error (.ParamError
        ("Exceed maximum allowed number of dice (5000) during " ++ s ++ "."))) ∧
    (∀ (R : Type) (dice : DiceKindG R) (p : R → Bool) (src : Nat → Nat) (roll : R)
      (idx : Nat),
      ((∃ rs, (roll_until dice p src roll idx []).1 = .ok rs) ∨
        (roll_until dice p src roll idx []).1 = .error (.ParamError
          "Exceed maximum allowed number of dice (5000) during rerolls.")) ∧
      (roll_until dice p src roll idx []).2 ≤ idx + MAX_NUMBER_OF_DICE + 2) ∧
    (∀ (fuel : Nat) (ds cs : List Char) (n : Nat),
      parseUsize ds = .ok n → MAX_NUMBER_OF_DICE < n →
      parseDiceTail fuel (some ds) cs = .error (.ParamError
        "Exceed maximum allowed number of dice (5000) during parse.")) ∧
    (∀ count : Nat, MAX_NUMBER_OF_DICE < count →
      processRepeatCount count = .error (.ParamError
        "Exceed maximum allowed number of dice (5000) during repeated roll count.")) := by
  have hmsg : ∀ s : String,
      ("Exceed maximum allowed number of dice (" ++ toString MAX_NUMBER_OF_DICE ++
        ") during " ++ s ++ ".") =
      ("Exceed maximum allowed number of dice (5000) during " ++ s ++ ".") := by
    intro s; rfl
  refine ⟨?_, ?_, ?_, ?_, ?_⟩
  · intro n s h
    unfold limit_dice
    rw [if_neg (by omega)]
  · intro n s h
    unfold limit_dice
    rw [if_pos (by omega), hmsg]
  · intro R dice p src roll idx
    have h := roll_until_cases dice p src (MAX_NUMBER_OF_DICE + 1) roll idx [] (by simp)
    simp only [List.length_nil, Nat.sub_zero] at h
    refine ⟨?_, by omega⟩
    rcases h.1 with hok | herr
    · exact .inl hok
    · exact .inr (by rw [herr]; rfl)
  · intro fuel ds cs n hds hn
    have hl : limit_dice n "parse" = .error (.ParamError
        "Exceed maximum allowed number of dice (5000) during parse.") := by
      unfold limit_dice
      rw [if_pos (by omega), hmsg]
      rfl
    unfold parseDiceTail
    simp only [hds, hl]
  · intro count h
    unfold processRepeatCount
    rw [if_neg (by omega)]
    unfold limit_dice
    rw [if_pos (by omega), hmsg]
    rfl

/-- Witness for C7 at concrete inputs: the limit accepts 5000, rejects 5001
with the exact message for each stage, and a `roll_until` call from an empty
accumulator draws at most 5002 values. -/
theorem growth_loops_bounded_limit_witness :
    limit_dice 5000 "parse" = .ok () ∧
    limit_dice 5001 "batch aggregation" = .error (.ParamError
      "Exceed maximum allowed number of dice (5000) during batch aggregation.") ∧
    (((∃ rs, (roll_until (basicKind 6) (fun r => 3 < r) (fun i => i + 1) 1 0 []).1 =
        .ok rs) ∨
      (roll_until (basicKind 6) (fun r => 3 < r) (fun i => i + 1) 1 0 []).1 =
        .error (.ParamError
          "Exceed maximum allowed number of dice (5000) during rerolls.")) ∧
      (roll_until (basicKind 6) (fun r => 3 < r) (fun i => i + 1) 1 0 []).2 ≤
        0 + MAX_NUMBER_OF_DICE + 2) ∧
    parseDiceTail 9 (some ("5001".data)) ("6".data) = .error (.ParamError
      "Exceed maximum allowed number of dice (5000) during parse.") ∧
    processRepeatCount 5001 = .error (.ParamError
      "Exceed maximum allowed number of dice (5000) during repeated roll count.") :=
  ⟨growth_loops_bounded_limit.1 5000 "parse" (by decide),
   growth_loops_bounded_limit.2.1 5001 "batch aggregation" (by decide),
   growth_loops_bounded_limit.2.2.1 ℕ (basicKind 6) (fun r => 3 < r) (fun i => i + 1) 1 0,
   growth_loops_bounded_limit.2.2.2.1 9 ("5001".data) ("6".data) 5001 (by decide)
     (by decide),
   growth_loops_bounded_limit.2.2.2.2 5001 (by decide)⟩

/-- Extracts the list from a successful result (`[]` on error). -/
def exceptList (r : Except RollError (List EvalExpr)) : List EvalExpr :=
  r.toOption.getD []

/-- The list of per-evaluation results a command produces: `count` successive
evaluations of its expression. -/
def commandEvalList (cmd : Command) (src : Nat → Nat) (idx : Nat) : List EvalExpr :=
  exceptList (evalN cmd.expression ((cmd.repeated.map RepeatedCommand.count).getD 1) src idx).1

/-- A successful `evalN` returns exactly `n` evaluations. -/
theorem evalN_ok_length (e : Expr) :
    ∀ (n : Nat) (src : Nat → Nat) (idx : Nat) (l : List EvalExpr) (idx2 : Nat),
      evalN e n src idx = (.ok l, idx2) → l.length = n := by
  intro n
  induction n with
  | zero =>
    intro src idx l idx2 h
    simp only [evalN, Prod.mk.injEq, Except.ok.injEq] at h
    simp [← h.1]
  | succ m ih =>
    intro src idx l idx2 h
    simp only [evalN] at h
    rcases h1 : e.eval src idx with ⟨res, idx3⟩
    rw [h1] at h
    cases res with
    | error err => simp at h
    | ok v =>
      simp only at h
      rcases h2 : evalN e m src idx3 with ⟨res2, idx4⟩
      rw [h2] at h
      cases res2 with
      | error err => simp at h
      | ok vs =>
        simp only [Prod.mk.injEq, Except.ok.injEq] at h
        rw [← h.1]
        simp [ih src idx3 vs idx4 h2]

/-- C9: a repeated command evaluates its expression `count` times in order;
`Sum` yields the fold of the per-evaluation totals from `0.0`, `Sort` yields
no total and the evaluations stably sorted by the total order on totals
(`f64::total_cmp`), `None` yields no total; a non-repeated command's total is
its single evaluation's total. -/
theorem command_repeat_modes (cmd : Command) (src : Nat → Nat) (idx : Nat)
    (ev : EvaluatedCommand) (idx' : Nat)
    (h : cmd.roll_with_source src idx = (.ok ev, idx')) :
    (evalN cmd.expression ((cmd.repeated.map RepeatedCommand.count).getD 1) src idx).1 =
      .ok (commandEvalList cmd src idx) ∧
    (evalN cmd.expression ((cmd.repeated.map RepeatedCommand.count).getD 1) src idx).2 =
      idx' ∧
    (commandEvalList cmd src idx).length = (cmd.repeated.map RepeatedCommand.count).getD 1 ∧
    ev.repeated = cmd.repeated ∧
    ev.reason = cmd.reason ∧
    (match cmd.repeated with
     | some rc =>
       match rc.mode with
       | .Sum => ev.expressions = commandEvalList cmd src idx ∧
           ev.total = some ((commandEvalList cmd src idx).foldl
             (fun x y => F.add x y.total) (.finite 0))
       | .Sort => ev.total = Option.none ∧
           ev.expressions.Perm (commandEvalList cmd src idx) ∧
           List.Sorted (fun a b => totalFle a b = true) ev.expressions
       | .None => ev.total = Option.none ∧
           ev.expressions = commandEvalList cmd src idx
     | none => ev.total = (commandEvalList cmd src idx).head?.map EvalExpr.total ∧
         ev.expressions = commandEvalList cmd src idx) := by
  unfold Command.roll_with_source at h
  dsimp only [] at h
  rcases hev : evalN cmd.expression ((cmd.repeated.map RepeatedCommand.count).getD 1)
      src idx with ⟨res, idx2⟩
  rw [hev] at h
  cases res with
  | error e => simp at h
  | ok l =>
    simp only [Prod.mk.injEq, Except.ok.injEq] at h
    obtain ⟨h1, h2⟩ := h
    subst h2
    subst h1
    have hL : commandEvalList cmd src idx = l := by
      unfold commandEvalList
      rw [hev]
      rfl
    have hlen : l.length = (cmd.repeated.map RepeatedCommand.count).getD 1 :=
      evalN_ok_length cmd.expression _ src idx l idx2 hev
    haveI instTot : IsTotal EvalExpr (fun a b => totalFle a b = true) :=
      ⟨fun a b => F.fle_total a.total b.total⟩
    haveI instTrans : IsTrans EvalExpr (fun a b => totalFle a b = true) :=
      ⟨fun a b c => F.fle_trans⟩
    refine ⟨by rw [hL], rfl, by rw [hL]; exact hlen, rfl, rfl, ?_⟩
    rcases hc : cmd.repeated with - | rc
    · dsimp only []
      rw [hL]
      exact ⟨rfl, rfl⟩
    · dsimp only []
      rcases hm : rc.mode with - | - | -
      all_goals dsimp only []
      all_goals rw [hL]
      · exact ⟨rfl, rfl⟩
      · exact ⟨rfl, List.perm_insertionSort _ l,
          List.sorted_insertionSort (fun a b => totalFle a b = true) l⟩
      · exact ⟨rfl, rfl⟩

/-- The concrete repeated command `(1d6) ^# 2` used by the C9 witness. -/
def c9cmd : Command :=
  { expression := .diceBasic 6 1 [] .Sum,
    repeated := some ⟨2, .Sort⟩,
    reason := Option.none }

/-- Its evaluation with draws `5, 4`: the two evaluations sorted by total. -/
def c9ev : EvaluatedCommand :=
  { total := Option.none,
    expressions := [.diceBasic { total := 4, history := [], final_rolls := [4] },
                    .diceBasic { total := 5, history := [], final_rolls := [5] }],
    repeated := some ⟨2, .Sort⟩,
    reason := Option.none }

/-- Witness for C9: rolling `(1d6) ^# 2` with draws `5, 4` evaluates twice in
order and sorts the results by total with no command total. -/
theorem command_repeat_modes_witness :
    (evalN c9cmd.expression ((c9cmd.repeated.map RepeatedCommand.count).getD 1)
        (fun i => 5 - i) 0).1 =
      .ok (commandEvalList c9cmd (fun i => 5 - i) 0) ∧
    (evalN c9cmd.expression ((c9cmd.repeated.map RepeatedCommand.count).getD 1)
        (fun i => 5 - i) 0).2 = 2 ∧
    (commandEvalList c9cmd (fun i => 5 - i) 0).length =
      (c9cmd.repeated.map RepeatedCommand.count).getD 1 ∧
    c9ev.repeated = c9cmd.repeated ∧
    c9ev.reason = c9cmd.reason ∧
    (c9ev.total = Option.none ∧
     c9ev.expressions.Perm (commandEvalList c9cmd (fun i => 5 - i) 0) ∧
     List.Sorted (fun a b => totalFle a b = true) c9ev.expressions) :=
  command_repeat_modes c9cmd (fun i => 5 - i) 0 c9ev 2 (by decide)

/-- The lexicographic order on `(key, original index)` pairs.  A stable sort
by the key alone of a list whose indices are strictly increasing coincides
with sorting by this total order, which is how the tie-break behaviour of
`sort_by_key` is analysed. -/
def lexLe {K : Type} [LinearOrder K] (a b : K × Nat) : Prop :=
  a.1 < b.1 ∨ (a.1 = b.1 ∧ a.2 ≤ b.2)

instance lexLeDec {K : Type} [LinearOrder K] : DecidableRel (@lexLe K _) := fun a b => by
  unfold lexLe
  infer_instance

instance lexLeTotal {K : Type} [LinearOrder K] : IsTotal (K × Nat) lexLe := by
  constructor
  intro a b
  rcases lt_trichotomy a.1 b.1 with h | h | h
  · exact .inl (.inl h)
  · rcases Nat.le_total a.2 b.2 with h2 | h2
    · exact .inl (.inr ⟨h, h2⟩)
    · exact .inr (.inr ⟨h.symm, h2⟩)
  · exact .inr (.inl h)

instance lexLeTrans {K : Type} [LinearOrder K] : IsTrans (K × Nat) lexLe := by
  constructor
  intro a b c hab hbc
  rcases hab with h1 | ⟨h1, h1'⟩ <;> rcases hbc with h2 | ⟨h2, h2'⟩
  · exact .inl (lt_trans h1 h2)
  · exact .inl (h2 ▸ h1)
  · exact .inl (h1 ▸ h2)
  · exact .inr ⟨h1.trans h2, le_trans h1' h2'⟩

instance sndLeTotal {A : Type} : IsTotal (A × Nat) (fun a b => a.2 ≤ b.2) :=
  ⟨fun a b => Nat.le_total a.2 b.2⟩

instance sndLeTrans {A : Type} : IsTrans (A × Nat) (fun a b => a.2 ≤ b.2) :=
  ⟨fun _ _ _ => Nat.le_trans⟩

/-- Inserting a pair whose index is below every index in the list: comparing
by key alone agrees with comparing lexicographically. -/
theorem orderedInsert_fst_eq_lex {K : Type} [LinearOrder K] (x : K × Nat) :
    ∀ (m : List (K × Nat)), (∀ y ∈ m, x.2 ≤ y.2) →
      List.orderedInsert (fun a b => a.1 ≤ b.1) x m = List.orderedInsert lexLe x m := by
  intro m
  induction m with
  | nil => intro _; rfl
  | cons y ys ih =>
    intro hall
    have hy : x.2 ≤ y.2 := hall y (by simp)
    have hiff : (x.1 ≤ y.1) ↔ lexLe x y := by
      constructor
      · intro h
        rcases lt_or_eq_of_le h with h' | h'
        · exact .inl h'
        · exact .inr ⟨h', hy⟩
      · intro h
        rcases h with h | ⟨h, -⟩
        · exact le_of_lt h
        · exact le_of_eq h
    simp only [List.orderedInsert]
    by_cases h : x.1 ≤ y.1
    · rw [if_pos h, if_pos (hiff.mp h)]
    · rw [if_neg h, if_neg (fun hl => h (hiff.mpr hl)),
        ih (fun z hz => hall z (by simp [hz]))]

/-- A stable sort by key of a list with strictly increasing indices equals
the sort by the lexicographic `(key, index)` order. -/
theorem insertionSort_fst_eq_lex {K : Type} [LinearOrder K] :
    ∀ (l : List (K × Nat)), l.Pairwise (fun a b => a.2 < b.2) →
      List.insertionSort (fun a b => a.1 ≤ b.1) l = List.insertionSort lexLe l := by
  intro l
  induction l with
  | nil => intro _; rfl
  | cons x xs ih =>
    intro hp
    rcases List.pairwise_cons.mp hp with ⟨hx, hxs⟩
    simp only [List.insertionSort]
    rw [ih hxs]
    apply orderedInsert_fst_eq_lex
    intro y hy
    have : y ∈ xs := (List.perm_insertionSort lexLe xs).mem_iff.mp hy
    exact le_of_lt (hx y this)

/-- Counting the elements of `range n` below `k`. -/
theorem countP_range_lt (n k : Nat) :
    (List.range n).countP (fun i => decide (i < k)) = min k n := by
  induction n with
  | zero => simp
  | succ m ih =>
    rw [List.range_succ, List.countP_append, ih]
    by_cases h : m < k
    · simp [h]
      omega
    · simp [h]
      omega

/-- Reading every position of a list back by `getD` over `range` returns the
list. -/
theorem map_getD_range {T : Type} [Inhabited T] (v : List T) :
    (List.range v.length).map (fun i => v.getD i default) = v := by
  apply List.ext_getElem
  · simp
  · intro i h1 h2
    simp only [List.getElem_map, List.getElem_range]
    rw [List.getD_eq_getElem]

/-- Full characterisation of `keep_low` used for C4: with `k ≤ len` it
succeeds; the output values are the input in the original order; exactly `k`
entries carry the keep flag; and among entries with equal keys the earlier
one is kept in preference to the later one (stable tie-break). -/
theorem keep_low_spec {T K : Type} [Inhabited T] [LinearOrder K] (v : List T) (k : Nat)
    (f : T → K) (hk : k ≤ v.length) :
    ∃ out, keep_low v k f = .ok out ∧
      out.length = v.length ∧
      out.map Prod.snd = v ∧
      out.countP (fun p => p.1) = k ∧
      (∀ i j, i < j → j < v.length → f (v.getD i default) = f (v.getD j default) →
        (out.getD j (false, default)).1 = true → (out.getD i (false, default)).1 = true) := by
  have hnot : ¬ (k > v.length) := by omega
  have hpair : (v.enum.map (fun it => (f it.2, it.1))).Pairwise
      (fun a b : K × Nat => a.2 < b.2) := by
    rw [List.pairwise_map]
    rw [List.pairwise_iff_getElem]
    intro a b ha hb hab
    simp only [List.getElem_enum]
    exact hab
  set keys : List (K × Nat) := v.enum.map (fun it => (f it.2, it.1)) with hkeys
  set S : List (K × Nat) := List.insertionSort lexLe keys with hSdef
  set flagged : List (Bool × Nat) := S.enum.map (fun ip => (decide (ip.1 < k), ip.2.2))
    with hflag
  set restored : List (Bool × Nat) :=
    List.insertionSort (fun a b : Bool × Nat => a.2 ≤ b.2) flagged with hrest
  set out : List (Bool × T) := restored.map (fun fi => (fi.1, v.getD fi.2 default))
    with hout_def
  have hkeys_len : keys.length = v.length := by simp [hkeys]
  have hout : keep_low v k f = .ok out := by
    unfold keep_low sortByKey
    rw [if_neg hnot]
    dsimp only []
    rw [insertionSort_fst_eq_lex _ hpair]
  have hSperm : S.Perm keys := List.perm_insertionSort _ _
  have hSsorted : List.Sorted lexLe S := List.sorted_insertionSort _ _
  have hSlen : S.length = v.length := by rw [hSperm.length_eq, hkeys_len]
  have hkeys_snd : keys.map Prod.snd = List.range v.length := by
    rw [hkeys, List.map_map]
    have hcomp : (Prod.snd ∘ fun it : Nat × T => (f it.2, it.1)) = Prod.fst := rfl
    rw [hcomp, List.enum_map_fst]
  have hS_snd_perm : (S.map Prod.snd).Perm (List.range v.length) :=
    hkeys_snd ▸ hSperm.map Prod.snd
  have hS_snd_nodup : (S.map Prod.snd).Nodup :=
    hS_snd_perm.nodup_iff.mpr (List.nodup_range v.length)
  have hflag_snd : flagged.map Prod.snd = S.map Prod.snd := by
    rw [hflag, List.map_map]
    have hcomp : (Prod.snd ∘ fun ip : Nat × (K × Nat) => (decide (ip.1 < k), ip.2.2)) =
        (Prod.snd ∘ Prod.snd) := rfl
    rw [hcomp, ← List.map_map, List.enum_map_snd]
  have hRperm : restored.Perm flagged := List.perm_insertionSort _ _
  have hRsorted : List.Sorted (fun a b : Bool × Nat => a.2 ≤ b.2) restored :=
    List.sorted_insertionSort _ _
  have hRsnd_sorted : List.Sorted (fun a b : Nat => a ≤ b) (restored.map Prod.snd) :=
    List.pairwise_map.mpr hRsorted
  have hRsnd_perm : (restored.map Prod.snd).Perm (List.range v.length) :=
    (hflag_snd ▸ hRperm.map Prod.snd).trans hS_snd_perm
  have hRsnd : restored.map Prod.snd = List.range v.length :=
    List.eq_of_perm_of_sorted hRsnd_perm hRsnd_sorted
      ((List.pairwise_lt_range v.length).imp le_of_lt)
  have hRlen : restored.length = v.length := by
    have h1 := congrArg List.length hRsnd
    simpa using h1
  have hdecomp : ∀ (i : Nat) (hiR : i < restored.length), ∃ p, ∃ hp : p < S.length,
      S[p].2 = restored[i].2 ∧ restored[i].1 = decide (p < k) := by
    intro i hiR
    have hmem : restored[i] ∈ flagged := hRperm.mem_iff.mp (List.getElem_mem hiR)
    rw [hflag] at hmem
    rcases List.mem_map.mp hmem with ⟨ip, hip, heq⟩
    rcases List.mem_iff_getElem.mp hip with ⟨p, hp, hpe⟩
    have hp2 : p < S.length := by simpa using hp
    rw [List.getElem_enum] at hpe
    rw [← hpe] at heq
    exact ⟨p, hp2, by rw [← heq], by rw [← heq]⟩
  have hSget : ∀ (p : Nat) (hp : p < S.length),
      S[p] = (f (v.getD (S[p]).2 default), (S[p]).2) := by
    intro p hp
    have hm : S[p] ∈ keys := hSperm.mem_iff.mp (List.getElem_mem hp)
    rcases List.mem_iff_getElem.mp hm with ⟨m, hm2, hme⟩
    have hm3 : m < v.length := by rw [← hkeys_len]; exact hm2
    have hkm : keys[m] = (f (v.getD m default), m) := by
      have h1 := List.getElem_of_eq hkeys hm2
      rw [h1]
      simp only [List.getElem_map, List.getElem_enum]
      rw [List.getD_eq_getElem v default hm3]
    rw [hkm] at hme
    rw [← hme]
  have hS_inj : ∀ (p q : Nat) (hp : p < S.length) (hq : q < S.length),
      S[p].2 = S[q].2 → p = q := by
    intro p q hp hq h
    have hp2 : p < (S.map Prod.snd).length := by simpa using hp
    have hq2 : q < (S.map Prod.snd).length := by simpa using hq
    have h2 : (S.map Prod.snd)[p] = (S.map Prod.snd)[q] := by
      rw [List.getElem_map, List.getElem_map]
      exact h
    exact hS_snd_nodup.getElem_inj_iff.mp h2
  have hpos : ∀ (p q : Nat) (hp : p < S.length) (hq : q < S.length),
      S[p].1 = S[q].1 → S[p].2 < S[q].2 → p < q := by
    intro p q hp hq hfst hsnd
    rcases lt_trichotomy p q with h | h | h
    · exact h
    · subst h
      exact absurd hsnd (lt_irrefl _)
    · have hrel := (List.pairwise_iff_getElem.mp hSsorted) q p hq hp h
      rcases hrel with hlt | ⟨heq, hle⟩
      · rw [hfst] at hlt
        exact absurd hlt (lt_irrefl _)
      · omega
  have hRget_snd : ∀ (i : Nat) (hiR : i < restored.length) (hi : i < v.length),
      restored[i].2 = i := by
    intro i hiR hi
    have h1 : (restored.map Prod.snd).getD i 0 = (List.range v.length).getD i 0 := by
      rw [hRsnd]
    rw [List.getD_eq_getElem _ _ (by simpa using hiR),
      List.getD_eq_getElem _ _ (by simpa using hi)] at h1
    rw [List.getElem_map] at h1
    rw [List.getElem_range] at h1
    exact h1
  refine ⟨out, hout, ?_, ?_, ?_, ?_⟩
  · rw [hout_def]
    simp [hRlen]
  · rw [hout_def, List.map_map]
    have hcomp : (Prod.snd ∘ fun fi : Bool × Nat => (fi.1, v.getD fi.2 default)) =
        ((fun i => v.getD i default) ∘ Prod.snd) := rfl
    rw [hcomp, ← List.map_map, hRsnd, map_getD_range]
  · rw [hout_def, List.countP_map]
    have h1 : ((fun p : Bool × T => p.1) ∘ fun fi : Bool × Nat =>
        (fi.1, v.getD fi.2 default)) = fun fi : Bool × Nat => fi.1 := rfl
    rw [h1, List.Perm.countP_eq _ hRperm, hflag, List.countP_map]
    have h2 : ((fun fi : Bool × Nat => fi.1) ∘ fun ip : Nat × (K × Nat) =>
        (decide (ip.1 < k), ip.2.2)) = fun ip : Nat × (K × Nat) => decide (ip.1 < k) := rfl
    rw [h2]
    have h3 : S.enum.countP (fun ip => decide (ip.1 < k)) =
        (S.enum.map Prod.fst).countP (fun i => decide (i < k)) := by
      rw [List.countP_map]
      rfl
    rw [h3, List.enum_map_fst, countP_range_lt, hSlen]
    omega
  · intro i j hij hj hfv hjf
    have hi : i < v.length := lt_trans hij hj
    have hiR : i < restored.length := by omega
    have hjR : j < restored.length := by omega
    have hiO : i < out.length := by rw [hout_def]; simpa using hiR
    have hjO : j < out.length := by rw [hout_def]; simpa using hjR
    rw [List.getD_eq_getElem out _ hjO] at hjf
    rw [List.getD_eq_getElem out _ hiO]
    have houtI : out[i] = ((restored[i]).1, v.getD (restored[i]).2 default) := by
      have h1 := List.getElem_of_eq hout_def hiO
      rw [h1, List.getElem_map]
    have houtJ : out[j] = ((restored[j]).1, v.getD (restored[j]).2 default) := by
      have h1 := List.getElem_of_eq hout_def hjO
      rw [h1, List.getElem_map]
    rw [houtJ] at hjf
    rw [houtI]
    obtain ⟨p, hp, hps, hpf⟩ := hdecomp i hiR
    obtain ⟨q, hq, hqs, hqf⟩ := hdecomp j hjR
    have hri : restored[i].2 = i := hRget_snd i hiR hi
    have hrj : restored[j].2 = j := hRget_snd j hjR hj
    have hpi : S[p].2 = i := by rw [hps, hri]
    have hqj : S[q].2 = j := by rw [hqs, hrj]
    have hpv : S[p].1 = f (v.getD i default) := by
      have h1 := hSget p hp
      rw [hpi] at h1
      exact congrArg Prod.fst h1
    have hqv : S[q].1 = f (v.getD j default) := by
      have h1 := hSget q hq
      rw [hqj] at h1
      exact congrArg Prod.fst h1
    have hpq : p < q := by
      apply hpos p q hp hq
      · rw [hpv, hqv, hfv]
      · rw [hpi, hqj]
        exact hij
    simp only at hjf
    rw [hqf] at hjf
    simp only
    rw [hpf]
    simp only [decide_eq_true_eq] at hjf
    simp only [decide_eq_true_eq]
    omega

/-- C4 (counterexample to the claim as stated): under keep-high with a tie at
the cut the EARLIEST tied roll wins, not the latest: `KeepHi 1` on `[3, 3]`
keeps the first entry (the stable sort preserves the original order of equal
keys even under the reversed ordering). -/
theorem keepHi_latest_tie_false :
    (KeepOrDrop.KeepHi 1).apply ([3, 3] : List ℕ) (fun x => x) =
      .ok [(true, 3), (false, 3)] ∧
    ¬ (KeepOrDrop.KeepHi 1).apply ([3, 3] : List ℕ) (fun x => x) =
      .ok [(false, 3), (true, 3)] := by
  constructor
  · decide
  · decide

/-- C4 (amended): keep-low and keep-high selections with `k ≤ len` preserve
the input order, keep exactly `k` rolls, and break ties at the cut by
original position with the earliest tied roll winning under BOTH keep-low
and keep-high (the reversed ordering key does not reverse the stable
tie-break).  The tie-break conclusions are stated as disjunctions: either
the indices do not form a tie, or the earlier index is kept, or the later
one is dropped. -/
theorem keep_selection_stable_earliest_wins {T K : Type} [Inhabited T] [LinearOrder K]
    (v : List T) (k : Nat) (f : T → K) (outLo outHi : List (Bool × T)) (i j : Nat)
    (hk : k ≤ v.length)
    (hLo : (KeepOrDrop.KeepLo k).apply v f = .ok outLo)
    (hHi : (KeepOrDrop.KeepHi k).apply v f = .ok outHi) :
    outLo.map Prod.snd = v ∧ outHi.map Prod.snd = v ∧
    outLo.countP (fun p => p.1) = k ∧ outHi.countP (fun p => p.1) = k ∧
    (¬ i < j ∨ ¬ j < v.length ∨ f (v.getD i default) ≠ f (v.getD j default) ∨
      (outLo.getD i (false, default)).1 = true ∨
      (outLo.getD j (false, default)).1 = false) ∧
    (¬ i < j ∨ ¬ j < v.length ∨ f (v.getD i default) ≠ f (v.getD j default) ∨
      (outHi.getD i (false, default)).1 = true ∨
      (outHi.getD j (false, default)).1 = false) := by
  obtain ⟨oLo, hLo2, _hLoLen, hLoSnd, hLoCnt, hLoTie⟩ := keep_low_spec v k f hk
  obtain ⟨oHi, hHi2, _hHiLen, hHiSnd, hHiCnt, hHiTie⟩ :=
    keep_low_spec v k (fun r => OrderDual.toDual (f r)) hk
  have heLo : outLo = oLo := by
    have h1 : (KeepOrDrop.KeepLo k).apply v f = keep_low v k f := rfl
    rw [h1, hLo2] at hLo
    exact (Except.ok.inj hLo).symm
  have heHi : outHi = oHi := by
    have h1 : (KeepOrDrop.KeepHi k).apply v f =
        keep_low v k (fun r => OrderDual.toDual (f r)) := rfl
    rw [h1, hHi2] at hHi
    exact (Except.ok.inj hHi).symm
  rw [heLo, heHi]
  refine ⟨hLoSnd, hHiSnd, hLoCnt, hHiCnt, ?_, ?_⟩
  · by_cases h1 : i < j
    · by_cases h2 : j < v.length
      · by_cases h3 : f (v.getD i default) = f (v.getD j default)
        · by_cases h4 : (oLo.getD j (false, default)).1 = true
          · exact .inr (.inr (.inr (.inl (hLoTie i j h1 h2 h3 h4))))
          · exact .inr (.inr (.inr (.inr (by simpa using h4))))
        · exact .inr (.inr (.inl h3))
      · exact .inr (.inl h2)
    · exact .inl h1
  · by_cases h1 : i < j
    · by_cases h2 : j < v.length
      · by_cases h3 : f (v.getD i default) = f (v.getD j default)
        · by_cases h4 : (oHi.getD j (false, default)).1 = true
          · exact .inr (.inr (.inr (.inl (hHiTie i j h1 h2 (by rw [h3]) h4))))
          · exact .inr (.inr (.inr (.inr (by simpa using h4))))
        · exact .inr (.inr (.inl h3))
      · exact .inr (.inl h2)
    · exact .inl h1

/-- Witness for C4 (amended) on the tied batch `[3, 3]` with `k = 1`. -/
theorem keep_selection_stable_earliest_wins_witness :
    ([(true, 3), (false, 3)] : List (Bool × ℕ)).map Prod.snd = [3, 3] ∧
    ([(true, 3), (false, 3)] : List (Bool × ℕ)).map Prod.snd = [3, 3] ∧
    ([(true, 3), (false, 3)] : List (Bool × ℕ)).countP (fun p => p.1) = 1 ∧
    ([(true, 3), (false, 3)] : List (Bool × ℕ)).countP (fun p => p.1) = 1 ∧
    (¬ (0 : ℕ) < 1 ∨ ¬ 1 < ([3, 3] : List ℕ).length ∨
      (fun x => x) (([3, 3] : List ℕ).getD 0 default) ≠
        (fun x => x) (([3, 3] : List ℕ).getD 1 default) ∨
      (([(true, 3), (false, 3)] : List (Bool × ℕ)).getD 0 (false, default)).1 = true ∨
      (([(true, 3), (false, 3)] : List (Bool × ℕ)).getD 1 (false, default)).1 = false) ∧
    (¬ (0 : ℕ) < 1 ∨ ¬ 1 < ([3, 3] : List ℕ).length ∨
      (fun x => x) (([3, 3] : List ℕ).getD 0 default) ≠
        (fun x => x) (([3, 3] : List ℕ).getD 1 default) ∨
      (([(true, 3), (false, 3)] : List (Bool × ℕ)).getD 0 (false, default)).1 = true ∨
      (([(true, 3), (false, 3)] : List (Bool × ℕ)).getD 1 (false, default)).1 = false) :=
  keep_selection_stable_earliest_wins [3, 3] 1 (fun x => x)
    [(true, 3), (false, 3)] [(true, 3), (false, 3)] 0 1
    (by decide) (by decide) (by decide)
